import Mathlib

/-!
Shallow embedding of the save3ds core: the IVFC hash-verified level
(src/ivfc_level.rs), the save filesystem file operations
(libsave3ds/src/save_data.rs), and the header-validation stage of
`SaveData::new`.  Byte stores are modelled as lists of naturals
(each element a byte value), fallible operations return an explicit
outcome type, and the Rust `assert!` / `.unwrap()` aborts are modelled
by a dedicated `panicked` outcome.  The SHA-256 function from the
external `sha2` crate is a parameter `H` of every hashing operation.
-/

namespace Save3DS

/-- Error kinds of the library (libsave3ds error.rs, spec section 7). -/
inductive Err where
  | HashMismatch
  | OutOfBound
  | MagicMismatch
  | SizeMismatch
  | NotFound
  | AlreadyExist
  | BrokenFat
  | NoSpace
deriving DecidableEq, Repr

/-- Outcome of a fallible operation: success, a returned error, or an
abort (`assert!` failure, arithmetic underflow, `.unwrap()` on `None`). -/
inductive RW (α : Type) where
  | ok : α → RW α
  | err : Err → RW α
  | panicked : RW α
deriving DecidableEq, Repr

/-- The sub-list of `d` of length `n` starting at position `p`. -/
def slice (d : List Nat) (p n : Nat) : List Nat := (d.drop p).take n

/-- Overwrite `d` at position `p` with the bytes `b`. -/
def listWrite (d : List Nat) (p : Nat) (b : List Nat) : List Nat :=
  d.take p ++ b ++ d.drop (p + b.length)

/-- `MemoryFile::read`: copy `n` bytes at `p`, `none` (OutOfBound) past the end. -/
def memRead (d : List Nat) (p n : Nat) : Option (List Nat) :=
  if p + n ≤ d.length then some (slice d p n) else none

/-- `MemoryFile::write`: overwrite `b.length` bytes at `p`, `none` past the end. -/
def memWrite (d : List Nat) (p : Nat) (b : List Nat) : Option (List Nat) :=
  if p + b.length ≤ d.length then some (listWrite d p b) else none

/-- State of an `IvfcLevel` (src/ivfc_level.rs): the hash store, the data
store (both modelled as in-memory byte stores), the block length, the
cached data length, and the packed two-bit status list. -/
structure Ivfc where
  hash : List Nat
  data : List Nat
  block_len : Nat
  len : Nat
  status : List Nat
deriving DecidableEq, Repr

/-- `block_count` as computed in `IvfcLevel::new` and `commit`. -/
def Ivfc.block_count (v : Ivfc) : Nat := 1 + (v.len - 1) / v.block_len

/-- `IvfcLevel::new`: length taken from the data store, statuses all zero
(Unverified).  The `assert_eq!(block_count * 0x20, hash.len())` of the
source is carried as the `Ivfc.wf` hypothesis of the theorems. -/
def Ivfc.new (hash data : List Nat) (block_len : Nat) : Ivfc :=
  { hash := hash, data := data, block_len := block_len, len := data.length,
    status := List.replicate (1 + ((1 + (data.length - 1) / block_len) - 1) / 4) 0 }

/-- `IvfcLevel::get_status`: two bits per block, four blocks per byte. -/
def Ivfc.get_status (v : Ivfc) (i : Nat) : Nat :=
  ((v.status.getD (i / 4) 0) >>> ((i % 4) * 2)) &&& 3

/-- The updated status byte: `b &= !(3 << j); b |= s << j` in `u8`. -/
def setStatusByte (b j s : Nat) : Nat :=
  (b &&& (255 ^^^ (3 <<< j))) ||| ((s <<< j) % 256)

/-- `IvfcLevel::set_status`. -/
def Ivfc.set_status (v : Ivfc) (i s : Nat) : Ivfc :=
  let b := setStatusByte (v.status.getD (i / 4) 0) ((i % 4) * 2) s
  { v with status := v.status.set (i / 4) b }

/-- End position (exclusive) of block `i` within the data:
`min ((i+1) * block_len) len`. -/
def Ivfc.block_end (v : Ivfc) (i : Nat) : Nat := min ((i + 1) * v.block_len) v.len

/-- The full-size buffer hashed for block `i`: the block content read from
the data store, zero-padded to `block_len` when the tail block is short
(the `vec![0; block_len]` buffer of the source). -/
def Ivfc.fullBlock (v : Ivfc) (i : Nat) : List Nat :=
  slice v.data (i * v.block_len) (v.block_end i - i * v.block_len) ++
    List.replicate (v.block_len - (v.block_end i - i * v.block_len)) 0

/-- One iteration of the `IvfcLevel::read` block loop for block `i`:
load the block, and if its status is Unverified compare `H` of the padded
buffer with the stored 32-byte digest at `i * 0x20`, on match marking the
block Verified. -/
def Ivfc.readStep (H : List Nat → List Nat) (v : Ivfc) (i : Nat) :
    RW (List Nat) × Ivfc :=
  let dbegin := i * v.block_len
  let dend := min ((i + 1) * v.block_len) v.len
  match memRead v.data dbegin (dend - dbegin) with
  | none => (.err .OutOfBound, v)
  | some chunk =>
      let block_buf := chunk ++ List.replicate (v.block_len - (dend - dbegin)) 0
      if v.get_status i = 0 then
        match memRead v.hash (i * 32) 32 with
        | none => (.err .OutOfBound, v)
        | some stored =>
            if H block_buf ≠ stored then (.err .HashMismatch, v)
            else (.ok block_buf, v.set_status i 1)
      else (.ok block_buf, v)

/-- The `IvfcLevel::read` loop over the intersected block indices,
accumulating the requested slice of each block; an error stops the loop
and discards the bytes, as the Rust `?`-return does. -/
def Ivfc.readLoop (H : List Nat → List Nat) (v : Ivfc) (pos e : Nat) :
    List Nat → RW (List Nat) × Ivfc
  | [] => (.ok [], v)
  | i :: rest =>
      match v.readStep H i with
      | (.ok block_buf, v1) =>
          let dbegin_blk := i * v.block_len
          let dbegin := max dbegin_blk pos
          let dend := min (min ((i + 1) * v.block_len) v.len) e
          let seg := (block_buf.drop (dbegin - dbegin_blk)).take (dend - dbegin)
          match Ivfc.readLoop H v1 pos e rest with
          | (.ok restBytes, v2) => (.ok (seg ++ restBytes), v2)
          | (.err er, v2) => (.err er, v2)
          | (.panicked, v2) => (.panicked, v2)
      | (.err er, v1) => (.err er, v1)
      | (.panicked, v1) => (.panicked, v1)

/-- `IvfcLevel::read`.  `assert!(end <= self.len())` aborts on violation;
a zero-length read ending at position 0 aborts in the block-range
computation `1 + (end - 1) / block_len` (usize underflow). -/
def Ivfc.read (H : List Nat → List Nat) (v : Ivfc) (pos n : Nat) :
    RW (List Nat) × Ivfc :=
  let e := pos + n
  if e ≤ v.len then
    if e = 0 then (.panicked, v)
    else
      let bb := pos / v.block_len
      let eb := 1 + (e - 1) / v.block_len
      Ivfc.readLoop H v pos e (List.range' bb (eb - bb))
  else (.panicked, v)

/-- Mark every block of the list Modified (the `IvfcLevel::write` loop). -/
def Ivfc.setModified (v : Ivfc) (l : List Nat) : Ivfc :=
  l.foldl (fun s i => s.set_status i 2) v

/-- `IvfcLevel::write`: bounds assert, write-through to the data store,
then mark every intersected block Modified.  A zero-length write ending
at position 0 aborts in the block-range computation, after the data store
write. -/
def Ivfc.write (v : Ivfc) (pos : Nat) (buf : List Nat) : RW Unit × Ivfc :=
  let e := pos + buf.length
  if e ≤ v.len then
    match memWrite v.data pos buf with
    | none => (.err .OutOfBound, v)
    | some d =>
        let v1 : Ivfc := { v with data := d }
        if e = 0 then (.panicked, v1)
        else
          let bb := pos / v.block_len
          let eb := 1 + (e - 1) / v.block_len
          (.ok (), v1.setModified (List.range' bb (eb - bb)))
  else (.panicked, v)

/-- The `IvfcLevel::commit` loop: for each listed block whose status is
Modified, re-read the full (zero-padded) block, write `H` of it to slot
`i * 0x20` of the hash store, and mark the block Verified. -/
def Ivfc.commitLoop (H : List Nat → List Nat) (v : Ivfc) :
    List Nat → RW Unit × Ivfc
  | [] => (.ok (), v)
  | i :: rest =>
      if v.get_status i = 2 then
        let b := i * v.block_len
        let e := min ((i + 1) * v.block_len) v.len
        match memRead v.data b (e - b) with
        | none => (.err .OutOfBound, v)
        | some chunk =>
            let buf := chunk ++ List.replicate (v.block_len - (e - b)) 0
            match memWrite v.hash (i * 32) (H buf) with
            | none => (.err .OutOfBound, v)
            | some h =>
                Ivfc.commitLoop H (({ v with hash := h }).set_status i 1) rest
      else Ivfc.commitLoop H v rest

/-- `IvfcLevel::commit`: process every block index in order. -/
def Ivfc.commit (H : List Nat → List Nat) (v : Ivfc) : RW Unit × Ivfc :=
  v.commitLoop H (List.range' 0 (1 + (v.len - 1) / v.block_len))

/-- Status-list well-formedness: the chunk count of `IvfcLevel::new` and
bytes in `u8` range. -/
def Ivfc.statusOk (v : Ivfc) : Prop :=
  v.status.length = 1 + (v.block_count - 1) / 4 ∧ ∀ b ∈ v.status, b < 256

/-- Well-formedness of an `IvfcLevel`: positive block length, nonempty
data, cached length equal to the data store length, the constructor
assertion `hash.len() == block_count * 0x20`, and a well-formed status
list. -/
def Ivfc.wf (v : Ivfc) : Prop :=
  0 < v.block_len ∧ 1 ≤ v.len ∧ v.len = v.data.length ∧
    v.hash.length = v.block_count * 32 ∧ v.statusOk

/-- Apply a sequence of writes, keeping only the evolving state. -/
def Ivfc.applyWrites (v : Ivfc) (ws : List (Nat × List Nat)) : Ivfc :=
  ws.foldl (fun s w => (s.write w.1 w.2).2) v

/-- Pure effect of a write sequence on a byte store. -/
def writesData (d : List Nat) (ws : List (Nat × List Nat)) : List Nat :=
  ws.foldl (fun s w => listWrite s w.1 w.2) d

/-- Block `i` intersects the byte range `[p, p + l)` of a write
(`p / B ≤ i < 1 + (p + l - 1) / B`). -/
def touches (B i p l : Nat) : Prop :=
  p / B ≤ i ∧ i < 1 + (p + l - 1) / B

/-- `SaveFile` record (libsave3ds/src/save_data.rs). -/
structure SaveFileRec where
  next : Nat
  padding1 : Nat
  block : Nat
  size : Nat
  padding2 : Nat
deriving DecidableEq, Repr

/-- An open `File` of the save filesystem: cached length and, when the
record's block field is not the zero-length sentinel, the FAT file it
opened (modelled by the chain's byte content). -/
structure FsFile where
  len : Nat
  data : Option (List Nat)
deriving DecidableEq, Repr

/-- Modelled from the spec: `FatFile` random-access read (section 4.3);
the FatFile implementation is not among the provided sources.  A FAT file
is modelled by its chain byte content; reads copy a slice of it and
bounds violations fail with OutOfBound (section 4.1). -/
def fatRead (d : List Nat) (pos n : Nat) : RW (List Nat) :=
  match memRead d pos n with
  | some r => .ok r
  | none => .err .OutOfBound

/-- Modelled from the spec: `FatFile` random-access write (section 4.3),
returning the updated chain content; bounds violations fail with
OutOfBound (section 4.1). -/
def fatWrite (d : List Nat) (pos : Nat) (b : List Nat) : RW (List Nat) :=
  match memWrite d pos b with
  | some r => .ok r
  | none => .err .OutOfBound

/-- `SaveDataFileSystem::read`: bound check against the cached file
length, then `file.data.as_ref().unwrap().read(...)` — the `.unwrap()`
aborts when the file holds no FAT chain (zero-length file). -/
def fsRead (f : FsFile) (pos n : Nat) : RW (List Nat) :=
  if pos + n > f.len then .err .OutOfBound
  else
    match f.data with
    | none => .panicked
    | some d => fatRead d pos n

/-- `SaveDataFileSystem::write`, returning the updated chain content on
success. -/
def fsWrite (f : FsFile) (pos : Nat) (b : List Nat) : RW (List Nat) :=
  if pos + b.length > f.len then .err .OutOfBound
  else
    match f.data with
    | none => .panicked
    | some d => fatWrite d pos b

/-- `File::from_meta`: sentinel block `0x80000000` must carry size 0;
otherwise the FAT chain at `block` is opened (`fat` maps a run-head index
to the chain content, `FatFile::open` being outside the provided sources)
and the recorded size must be neither zero nor larger than the chain
length. -/
def fileFromMeta (fat : Nat → Except Err (List Nat)) (info : SaveFileRec) :
    Except Err FsFile :=
  if info.block = 0x80000000 then
    if info.size ≠ 0 then .error .SizeMismatch
    else .ok { len := info.size, data := none }
  else
    match fat info.block with
    | .error e => .error e
    | .ok chain =>
        if info.size = 0 ∨ info.size > chain.length then .error .SizeMismatch
        else .ok { len := info.size, data := some chain }

/-- Little-endian 32-bit word at position `p`. -/
def readU32 (d : List Nat) (p : Nat) : Nat :=
  d.getD p 0 + 256 * d.getD (p + 1) 0 + 65536 * d.getD (p + 2) 0 +
    16777216 * d.getD (p + 3) 0

/-- Little-endian 64-bit word at position `p`. -/
def readU64 (d : List Nat) (p : Nat) : Nat :=
  readU32 d p + 4294967296 * readU32 d (p + 4)

/-- Parsed `SaveHeader` (save_data.rs, byte_struct little-endian layout). -/
structure SaveHeaderP where
  magic : List Nat
  version : Nat
  fs_info_offset : Nat
  image_size : Nat
  image_block_len : Nat
  padding : Nat
deriving DecidableEq, Repr

/-- Modelled from the spec: `read_struct` for `SaveHeader` — the
`read_struct` helper is not among the provided sources; it reads the
32-byte packed little-endian struct at offset 0, failing like an
out-of-bounds read when the region is too short. -/
def readSaveHeader (d : List Nat) : Option SaveHeaderP :=
  if 32 ≤ d.length then
    some { magic := slice d 0 4, version := readU32 d 4,
           fs_info_offset := readU64 d 8, image_size := readU64 d 16,
           image_block_len := readU32 d 24, padding := readU32 d 28 }
  else none

/-- Parsed `FsInfo` (spec section 6 field order). -/
structure FsInfoP where
  unknown0 : Nat
  block_len : Nat
  dir_hash_offset : Nat
  dir_buckets : Nat
  file_hash_offset : Nat
  file_buckets : Nat
  fat_offset : Nat
  fat_size : Nat
  data_offset : Nat
  data_block_count : Nat
  dir_table : Nat
  max_dir : Nat
  file_table : Nat
  max_file : Nat
deriving DecidableEq, Repr

/-- Modelled from the spec: `read_struct` for `FsInfo` — the `FsInfo`
declaration (save_ext_common.rs) and `read_struct` are not among the
provided sources; the 80-byte packed little-endian layout follows the
field order of spec section 6. -/
def readFsInfo (d : List Nat) (p : Nat) : Option FsInfoP :=
  if p + 80 ≤ d.length then
    some { unknown0 := readU32 d p, block_len := readU32 d (p + 4),
           dir_hash_offset := readU64 d (p + 8),
           dir_buckets := readU32 d (p + 16),
           file_hash_offset := readU64 d (p + 20),
           file_buckets := readU32 d (p + 28),
           fat_offset := readU64 d (p + 32), fat_size := readU32 d (p + 40),
           data_offset := readU64 d (p + 44),
           data_block_count := readU32 d (p + 52),
           dir_table := readU64 d (p + 56), max_dir := readU32 d (p + 64),
           file_table := readU64 d (p + 68), max_file := readU32 d (p + 76) }
  else none

/-- The header-validation stage of `SaveData::new` over partition 0 of
the container: magic and version check, then the
`data_block_count == fat_size` check; on success the construction
proceeds with the parsed `FsInfo` (the subsequent table construction uses
Disa, SubFile, Fat and FsMeta, which are not among the provided
sources). -/
def saveDataNew (part0 : List Nat) : Except Err FsInfoP :=
  match readSaveHeader part0 with
  | none => .error .OutOfBound
  | some header =>
      if header.magic ≠ [0x53, 0x41, 0x56, 0x45] ∨ header.version ≠ 0x40000 then
        .error .MagicMismatch
      else
        match readFsInfo part0 header.fs_info_offset with
        | none => .error .OutOfBound
        | some fs_info =>
            if fs_info.data_block_count ≠ fs_info.fat_size then
              .error .SizeMismatch
            else .ok fs_info

/-- The filesystem metadata state: directory children as
(parent ino, name, ino) and file children as (parent ino, name, record),
plus a fresh-index counter standing for the free-slot list. -/
structure MetaState where
  dirEntries : List (Nat × List Nat × Nat)
  fileEntries : List (Nat × List Nat × SaveFileRec)
  nextIno : Nat
deriving DecidableEq, Repr

/-- Modelled from the spec: fs_meta directory lookup (section 4.4) — the
fs_meta hash-bucket tables are not among the provided sources; lookup
walks the entries, byte-comparing name and parent, and a miss is
NotFound. -/
def lookupDir (m : MetaState) (parent : Nat) (name : List Nat) :
    Except Err Nat :=
  match m.dirEntries.find? (fun e => decide (e.1 = parent ∧ e.2.1 = name)) with
  | some e => .ok e.2.2
  | none => .error .NotFound

/-- Modelled from the spec: fs_meta file lookup (section 4.4). -/
def lookupFile (m : MetaState) (parent : Nat) (name : List Nat) :
    Except Err SaveFileRec :=
  match m.fileEntries.find? (fun e => decide (e.1 = parent ∧ e.2.1 = name)) with
  | some e => .ok e.2.2
  | none => .error .NotFound

/-- Whether `parent` already has a child of either kind named `name`. -/
def dupExists (m : MetaState) (parent : Nat) (name : List Nat) : Bool :=
  (m.dirEntries.any fun e => decide (e.1 = parent ∧ e.2.1 = name)) ||
    (m.fileEntries.any fun e => decide (e.1 = parent ∧ e.2.1 = name))

/-- `Except.isOk` as used by the `is_ok()` duplicate checks. -/
def isOkE {α : Type} : Except Err α → Bool
  | .ok _ => true
  | .error _ => false

/-- `SaveDataFileSystem::open_sub_file`: metadata lookup followed by
`File::from_meta`. -/
def openSubFile (fat : Nat → Except Err (List Nat)) (m : MetaState)
    (parent : Nat) (name : List Nat) : Except Err FsFile :=
  match lookupFile m parent name with
  | .error e => .error e
  | .ok r => fileFromMeta fat r

/-- Modelled from the spec: fs_meta `new_sub_dir` (section 4.4) — reject
duplicates against both dir- and file-children of the parent, then link a
fresh entry (free-slot allocation abstracted to the fresh-index
counter). -/
def metaNewSubDir (m : MetaState) (parent : Nat) (name : List Nat) :
    Except Err (MetaState × Nat) :=
  if dupExists m parent name then .error .AlreadyExist
  else
    let es := (parent, name, m.nextIno) :: m.dirEntries
    .ok ({ m with dirEntries := es, nextIno := m.nextIno + 1 }, m.nextIno)

/-- Modelled from the spec: fs_meta `new_sub_file` (section 4.4). -/
def metaNewSubFile (m : MetaState) (parent : Nat) (name : List Nat)
    (r : SaveFileRec) : Except Err (MetaState × SaveFileRec) :=
  if dupExists m parent name then .error .AlreadyExist
  else
    let es := (parent, name, r) :: m.fileEntries
    .ok ({ m with fileEntries := es, nextIno := m.nextIno + 1 }, r)

/-- Modelled from the spec: fs_meta `rename` for directories
(section 4.4) — reject duplicates, unlink from the old parent, re-link
under the new parent. -/
def metaRenameDir (m : MetaState) (oldP : Nat) (oldName : List Nat)
    (newP : Nat) (newName : List Nat) : Except Err MetaState :=
  if dupExists m newP newName then .error .AlreadyExist
  else
    match m.dirEntries.find? (fun e => decide (e.1 = oldP ∧ e.2.1 = oldName)) with
    | none => .error .NotFound
    | some e =>
        let rest := m.dirEntries.filter
          (fun x => !decide (x.1 = oldP ∧ x.2.1 = oldName))
        .ok { m with dirEntries := (newP, newName, e.2.2) :: rest }

/-- Modelled from the spec: fs_meta `rename` for files (section 4.4),
the check `SaveDataFileSystem::file_rename` delegates to. -/
def metaRenameFile (m : MetaState) (oldP : Nat) (oldName : List Nat)
    (newP : Nat) (newName : List Nat) : Except Err MetaState :=
  if dupExists m newP newName then .error .AlreadyExist
  else
    match m.fileEntries.find? (fun e => decide (e.1 = oldP ∧ e.2.1 = oldName)) with
    | none => .error .NotFound
    | some e =>
        let rest := m.fileEntries.filter
          (fun x => !decide (x.1 = oldP ∧ x.2.1 = oldName))
        .ok { m with fileEntries := (newP, newName, e.2.2) :: rest }

/-- `SaveDataFileSystem::new_sub_dir`: the explicit duplicate check of
save_data.rs, then the fs_meta insertion. -/
def sdNewSubDir (fat : Nat → Except Err (List Nat)) (m : MetaState)
    (parent : Nat) (name : List Nat) : Except Err (MetaState × Nat) :=
  if isOkE (openSubFile fat m parent name) || isOkE (lookupDir m parent name) then
    .error .AlreadyExist
  else metaNewSubDir m parent name

/-- `SaveDataFileSystem::new_sub_file`: the explicit duplicate check,
FAT allocation for a nonzero length (`fatCreate` maps a block count to a
start index and chain content, `FatFile::create` being outside the
provided sources) or the `0x80000000` sentinel, fs_meta insertion, then
`File::from_meta` on the new record. -/
def sdNewSubFile (fat : Nat → Except Err (List Nat))
    (fatCreate : Nat → Except Err (Nat × List Nat)) (m : MetaState)
    (parent : Nat) (name : List Nat) (len : Nat) (blockLen : Nat) :
    Except Err (MetaState × FsFile) :=
  if isOkE (openSubFile fat m parent name) || isOkE (lookupDir m parent name) then
    .error .AlreadyExist
  else
    let created : Except Err Nat :=
      if len = 0 then .ok 0x80000000
      else
        match fatCreate (1 + (len - 1) / blockLen) with
        | .error e => .error e
        | .ok cr => .ok cr.1
    match created with
    | .error e => .error e
    | .ok blk =>
        match metaNewSubFile m parent name
            { next := 0, padding1 := 0, block := blk, size := len,
              padding2 := 0 } with
        | .error e => .error e
        | .ok mr =>
            match fileFromMeta fat mr.2 with
            | .error e => .error e
            | .ok f => .ok (mr.1, f)

/-- `SaveDataFileSystem::dir_rename`: the explicit duplicate check of
save_data.rs, then the fs_meta rename. -/
def sdDirRename (fat : Nat → Except Err (List Nat)) (m : MetaState)
    (oldP : Nat) (oldName : List Nat) (newP : Nat) (newName : List Nat) :
    Except Err MetaState :=
  if isOkE (openSubFile fat m newP newName) || isOkE (lookupDir m newP newName) then
    .error .AlreadyExist
  else metaRenameDir m oldP oldName newP newName

/-- `SaveDataFileSystem::file_rename`: delegates directly to the fs_meta
rename (no explicit check in save_data.rs). -/
def sdFileRename (m : MetaState) (oldP : Nat) (oldName : List Nat)
    (newP : Nat) (newName : List Nat) : Except Err MetaState :=
  metaRenameFile m oldP oldName newP newName

/-! Helper lemmas about list indexing. -/

theorem getD_set_self : ∀ (l : List Nat) (n x : Nat), n < l.length →
    (l.set n x).getD n 0 = x
  | _ :: _, 0, _, _ => rfl
  | _ :: l, n + 1, x, h =>
      getD_set_self l n x (by simpa using h)

theorem getD_set_ne : ∀ (l : List Nat) (n m x : Nat), n ≠ m →
    (l.set n x).getD m 0 = l.getD m 0
  | [], _, _, _, _ => rfl
  | _ :: _, 0, 0, _, h => absurd rfl h
  | _ :: _, 0, _ + 1, _, _ => rfl
  | _ :: _, _ + 1, 0, _, _ => rfl
  | _ :: l, n + 1, m + 1, x, h =>
      getD_set_ne l n m x (fun hc => h (by omega))

/-! Bit-level facts about the packed two-bit status encoding. -/

set_option maxRecDepth 4000 in
theorem setStatusByte_get_same : ∀ b < 256, ∀ s < 4, ∀ q < 4,
    ((setStatusByte b (q * 2) s) >>> (q * 2)) &&& 3 = s := by decide

set_option maxRecDepth 4000 in
theorem setStatusByte_get_other : ∀ b < 256, ∀ s < 4, ∀ q < 4, ∀ r < 4,
    q ≠ r →
    ((setStatusByte b (q * 2) s) >>> (r * 2)) &&& 3 = (b >>> (r * 2)) &&& 3 := by
  decide

set_option maxRecDepth 4000 in
theorem setStatusByte_lt : ∀ b < 256, ∀ s < 4, ∀ q < 4,
    setStatusByte b (q * 2) s < 256 := by decide

theorem get_status_set_status_same (v : Ivfc) (i s : Nat) (hs : s < 4)
    (hb : ∀ b ∈ v.status, b < 256) (hi : i / 4 < v.status.length) :
    (v.set_status i s).get_status i = s := by
  have hblt : v.status.getD (i / 4) 0 < 256 := by
    have := List.getD_eq_getElem v.status 0 hi
    rw [this]
    exact hb _ (List.getElem_mem hi)
  have h4 : i % 4 < 4 := Nat.mod_lt _ (by omega)
  show ((v.status.set (i / 4) _).getD (i / 4) 0 >>> (i % 4 * 2)) &&& 3 = s
  rw [getD_set_self _ _ _ hi]
  exact setStatusByte_get_same _ hblt _ hs _ h4

theorem get_status_set_status_other (v : Ivfc) (i j s : Nat) (hs : s < 4)
    (hb : ∀ b ∈ v.status, b < 256) (hi : i / 4 < v.status.length)
    (hne : j ≠ i) :
    (v.set_status i s).get_status j = v.get_status j := by
  show ((v.status.set (i / 4) _).getD (j / 4) 0 >>> (j % 4 * 2)) &&& 3 =
    (v.status.getD (j / 4) 0 >>> (j % 4 * 2)) &&& 3
  by_cases hq : i / 4 = j / 4
  · rw [hq, getD_set_self _ _ _ (hq ▸ hi)]
    have hblt : v.status.getD (j / 4) 0 < 256 := by
      have := List.getD_eq_getElem v.status 0 (hq ▸ hi)
      rw [this]
      exact hb _ (List.getElem_mem (hq ▸ hi))
    have hqm : i % 4 ≠ j % 4 := by
      intro hc
      exact hne (by omega)
    exact setStatusByte_get_other _ hblt _ hs _ (Nat.mod_lt _ (by omega)) _
      (Nat.mod_lt _ (by omega)) hqm
  · rw [getD_set_ne _ _ _ _ hq]

theorem set_status_statusOk (v : Ivfc) (i s : Nat) (hs : s < 4)
    (hok : v.statusOk) : (v.set_status i s).statusOk := by
  obtain ⟨hl, hb⟩ := hok
  constructor
  · simpa [Ivfc.set_status, Ivfc.block_count] using hl
  · intro b hbmem
    simp only [Ivfc.set_status] at hbmem
    rcases List.mem_or_eq_of_mem_set hbmem with h | h
    · exact hb _ h
    · subst h
      by_cases hi : i / 4 < v.status.length
      · have hblt : v.status.getD (i / 4) 0 < 256 := by
          rw [List.getD_eq_getElem v.status 0 hi]
          exact hb _ (List.getElem_mem hi)
        exact setStatusByte_lt _ hblt _ hs _ (Nat.mod_lt _ (by omega))
      · have hz : v.status.getD (i / 4) 0 = 0 :=
          List.getD_eq_default _ _ (Nat.not_lt.mp hi)
        rw [hz]
        exact setStatusByte_lt 0 (by decide) _ hs _ (Nat.mod_lt _ (by omega))

/-- C10: for every IvfcLevel, every in-range block index and every status
value in {0, 1, 2}, `set_status i s` makes `get_status i` return `s` and
leaves `get_status j` unchanged for every other in-range index `j`. -/
theorem ivfc_status_bitmap_correct (v : Ivfc) (i j s : Nat) (hs : s < 3)
    (hb : ∀ b ∈ v.status, b < 256) (hi : i / 4 < v.status.length)
    (hj : j / 4 < v.status.length) :
    (v.set_status i s).get_status i = s ∧
      (j ≠ i → (v.set_status i s).get_status j = v.get_status j) :=
  ⟨get_status_set_status_same v i s (by omega) hb hi,
   fun hne => get_status_set_status_other v i j s (by omega) hb hi hne⟩

/-- Witness for C10 at a concrete state: setting block 1 of the packed
list `[0, 7]` to Modified round-trips and leaves block 2 unchanged. -/
theorem ivfc_status_bitmap_correct_witness :
    (Ivfc.set_status ⟨[], [0], 1, 1, [0, 7]⟩ 1 2).get_status 1 = 2 ∧
      (Ivfc.set_status ⟨[], [0], 1, 1, [0, 7]⟩ 1 2).get_status 2 =
        (⟨[], [0], 1, 1, [0, 7]⟩ : Ivfc).get_status 2 := by
  have h := ivfc_status_bitmap_correct ⟨[], [0], 1, 1, [0, 7]⟩ 1 2 2
    (by decide) (by decide) (by decide) (by decide)
  exact ⟨h.1, h.2 (by decide)⟩

/-! Helper lemmas about slices and writes on byte stores. -/

theorem memRead_in_bounds (d : List Nat) (p n : Nat) (h : p + n ≤ d.length) :
    memRead d p n = some (slice d p n) := if_pos h

theorem memWrite_in_bounds (d : List Nat) (p : Nat) (b : List Nat)
    (h : p + b.length ≤ d.length) : memWrite d p b = some (listWrite d p b) :=
  if_pos h

theorem listWrite_nil (d : List Nat) (p : Nat) : listWrite d p [] = d := by
  simp [listWrite]

theorem listWrite_length (d : List Nat) (p : Nat) (b : List Nat)
    (h : p + b.length ≤ d.length) : (listWrite d p b).length = d.length := by
  simp only [listWrite, List.length_append, List.length_take, List.length_drop]
  omega

/-! C5.  The claim that zero-length reads and writes always succeed
without touching anything fails on the code: at `pos = 0` the block-range
computation `1 + (end - 1) / block_len` underflows (the operation
aborts), and at a position that is not a multiple of the block length the
covering block is still processed — a zero-length read verifies it (and
can fail with HashMismatch) and a zero-length write marks it Modified. -/

/-- C5 counterexample: on a well-formed two-byte level with block length
2 and a non-matching stored digest, the zero-length read at position 1
returns HashMismatch instead of succeeding untouched. -/
theorem ivfc_zero_len_io_counterexample :
    (Ivfc.read (fun _ => List.replicate 32 0)
        ⟨List.replicate 32 1, [0, 0], 2, 2, [0]⟩ 1 0).1 =
      RW.err Err.HashMismatch := by decide

/-- C5 as amended: a zero-length read or write at `0 < pos ≤ len` with
`block_len ∣ pos` returns Ok and leaves the state untouched; at
`pos = 0` both abort in the block-range underflow; at a non-aligned
position the read processes exactly the covering block `pos / block_len`
and the write marks that block Modified. -/
theorem ivfc_zero_len_io_amended (H : List Nat → List Nat) (v : Ivfc)
    (pos : Nat) (hwf : v.wf) (hle : pos ≤ v.len) :
    (pos = 0 → v.read H pos 0 = (.panicked, v) ∧
      v.write pos [] = (.panicked, v)) ∧
    (0 < pos → v.block_len ∣ pos →
      v.read H pos 0 = (.ok [], v) ∧ v.write pos [] = (.ok (), v)) ∧
    (0 < pos → ¬ v.block_len ∣ pos →
      v.read H pos 0 = v.readLoop H pos pos [pos / v.block_len] ∧
        v.write pos [] = (.ok (), v.set_status (pos / v.block_len) 2)) := by
  obtain ⟨hB, hlen1, hlen, hhash, hok⟩ := hwf
  have hdlen : pos + ([] : List Nat).length ≤ v.data.length := by
    simp only [List.length_nil, Nat.add_zero]
    omega
  have hw0 : memWrite v.data pos [] = some v.data := by
    rw [memWrite_in_bounds _ _ _ hdlen, listWrite_nil]
  refine ⟨?_, ?_, ?_⟩
  · rintro rfl
    constructor
    · simp [Ivfc.read]
    · simp only [Ivfc.write, List.length_nil, Nat.add_zero, Nat.zero_add]
      rw [if_pos (by omega)]
      simp only [hw0]
      rfl
  · intro hpos hdvd
    obtain ⟨k, rfl⟩ := hdvd
    have hne0 : v.block_len * k ≠ 0 := by omega
    have hk1 : 1 ≤ k := by
      by_contra hc
      have : k = 0 := by omega
      subst this
      simp at hpos
    have hbb : v.block_len * k / v.block_len = k :=
      Nat.mul_div_cancel_left k hB
    have heb : (v.block_len * k - 1) / v.block_len = k - 1 := by
      obtain ⟨j, rfl⟩ : ∃ j, k = j + 1 := ⟨k - 1, by omega⟩
      have h1 : v.block_len * (j + 1) - 1 = (v.block_len - 1) + j * v.block_len := by
        rw [Nat.mul_succ]
        have := Nat.mul_comm v.block_len j
        omega
      rw [h1, Nat.add_mul_div_right _ _ hB, Nat.div_eq_of_lt (by omega)]
      omega
    have hc : 1 + (k - 1) - k = 0 := by omega
    constructor
    · simp only [Ivfc.read, Nat.add_zero]
      rw [if_pos hle, if_neg hne0, hbb, heb, hc]
      rfl
    · simp only [Ivfc.write, List.length_nil, Nat.add_zero]
      rw [if_pos hle]
      simp only [hw0]
      rw [if_neg hne0, hbb, heb, hc]
      rfl
  · intro hpos hndvd
    have hne0 : pos ≠ 0 := by omega
    have hr : v.block_len * (pos / v.block_len) + pos % v.block_len = pos :=
      Nat.div_add_mod pos v.block_len
    have hrpos : 0 < pos % v.block_len := by
      rcases Nat.eq_zero_or_pos (pos % v.block_len) with h | h
      · exact absurd (Nat.dvd_of_mod_eq_zero h) hndvd
      · exact h
    have heb : (pos - 1) / v.block_len = pos / v.block_len := by
      have h1 : pos - 1 = (pos % v.block_len - 1) + (pos / v.block_len) * v.block_len := by
        have := Nat.mul_comm v.block_len (pos / v.block_len)
        omega
      rw [h1, Nat.add_mul_div_right _ _ hB,
        Nat.div_eq_of_lt (by have := Nat.mod_lt pos hB; omega)]
      omega
    have hc : 1 + pos / v.block_len - pos / v.block_len = 1 := by omega
    constructor
    · simp only [Ivfc.read, Nat.add_zero]
      rw [if_pos hle, if_neg hne0, heb, hc]
      rfl
    · simp only [Ivfc.write, List.length_nil, Nat.add_zero]
      rw [if_pos hle]
      simp only [hw0]
      rw [if_neg hne0, heb, hc]
      rfl

/-- Witness for the amended C5 at a concrete aligned position. -/
theorem ivfc_zero_len_io_amended_witness :
    Ivfc.read (fun _ => List.replicate 32 7)
        ⟨List.replicate 32 1, [0, 0], 2, 2, [0]⟩ 2 0 =
      (.ok [], ⟨List.replicate 32 1, [0, 0], 2, 2, [0]⟩) ∧
    Ivfc.write ⟨List.replicate 32 1, [0, 0], 2, 2, [0]⟩ 2 [] =
      (.ok (), ⟨List.replicate 32 1, [0, 0], 2, 2, [0]⟩) := by
  have h := ivfc_zero_len_io_amended (fun _ => List.replicate 32 7)
    ⟨List.replicate 32 1, [0, 0], 2, 2, [0]⟩ 2
    ⟨by decide, by decide, by decide, by decide, by decide, by decide⟩ (by decide)
  exact h.2.1 (by decide) (by decide)

/-! C4.  The save filesystem file operations do return OutOfBound on a
bounds violation, but the `IvfcLevel` operations `assert!` instead: an
out-of-bounds IVFC read or write aborts rather than returning the error. -/

/-- C4 counterexample: an out-of-bounds IVFC read and write abort
(`assert!` failure) instead of returning OutOfBound. -/
theorem ivfc_oob_counterexample :
    (Ivfc.read (fun _ => List.replicate 32 0)
        ⟨List.replicate 32 1, [0, 0], 2, 2, [0]⟩ 1 2).1 = RW.panicked ∧
    (Ivfc.write ⟨List.replicate 32 1, [0, 0], 2, 2, [0]⟩ 1 [5, 6]).1 =
      RW.panicked := by decide

/-- C4 as amended: on `pos + buf.len() > len()` the `IvfcLevel` read and
write abort via their bounds assertion (state untouched), while the save
filesystem file read and write return OutOfBound. -/
theorem oob_io_amended (H : List Nat → List Nat) (v : Ivfc)
    (pos n : Nat) (buf : List Nat) (f : FsFile) (p2 n2 : Nat)
    (b2 : List Nat) (h1 : pos + n > v.len) (h2 : pos + buf.length > v.len)
    (h3 : p2 + n2 > f.len) (h4 : p2 + b2.length > f.len) :
    v.read H pos n = (.panicked, v) ∧ v.write pos buf = (.panicked, v) ∧
    fsRead f p2 n2 = .err .OutOfBound ∧ fsWrite f p2 b2 = .err .OutOfBound := by
  refine ⟨?_, ?_, ?_, ?_⟩
  · simp only [Ivfc.read]
    rw [if_neg (by omega)]
  · simp only [Ivfc.write]
    rw [if_neg (by omega)]
  · simp only [fsRead]
    rw [if_pos (by omega)]
  · simp only [fsWrite]
    rw [if_pos (by omega)]

/-- Witness for the amended C4 at concrete out-of-bounds inputs. -/
theorem oob_io_amended_witness :
    Ivfc.read (fun _ => List.replicate 32 0)
        ⟨List.replicate 32 1, [0, 0], 2, 2, [0]⟩ 1 2 =
      (.panicked, ⟨List.replicate 32 1, [0, 0], 2, 2, [0]⟩) ∧
    Ivfc.write ⟨List.replicate 32 1, [0, 0], 2, 2, [0]⟩ 1 [5, 6] =
      (.panicked, ⟨List.replicate 32 1, [0, 0], 2, 2, [0]⟩) ∧
    fsRead ⟨0, none⟩ 0 1 = .err .OutOfBound ∧
    fsWrite ⟨0, none⟩ 0 [7] = .err .OutOfBound :=
  oob_io_amended (fun _ => List.replicate 32 0)
    ⟨List.replicate 32 1, [0, 0], 2, 2, [0]⟩ 1 2 [5, 6] ⟨0, none⟩ 0 1 [7]
    (by decide) (by decide) (by decide) (by decide)

/-! C9.  A zero-length file opens with `data == None`; the filesystem
read and write pass their bounds check (`0 + 0 > 0` is false) and then
call `.unwrap()` on that `None`, aborting instead of returning Ok as the
spec prescribes. -/

/-- C9: the record with the `0x80000000` sentinel and size 0 opens
successfully as a zero-length file, and reading or writing zero bytes at
position 0 of that file aborts on `file.data.as_ref().unwrap()` instead
of returning Ok. -/
theorem fs_zero_len_file_read_panics :
    fileFromMeta (fun _ => .error .BrokenFat)
        ⟨0, 0, 0x80000000, 0, 0⟩ = .ok ⟨0, none⟩ ∧
    fsRead ⟨0, none⟩ 0 0 = RW.panicked ∧
    fsWrite ⟨0, none⟩ 0 [] = RW.panicked := ⟨rfl, rfl, rfl⟩

/-! C8.  `File::from_meta` size-consistency checking. -/

/-- C8: opening a file record fails with SizeMismatch exactly when the
record is inconsistent — sentinel block with nonzero size, or a real
block whose recorded size is zero or exceeds the byte length of the FAT
chain opened from it — and otherwise succeeds with the file length equal
to the recorded size. -/
theorem file_from_meta_size_check (fat : Nat → Except Err (List Nat))
    (r : SaveFileRec) (chain : List Nat) (hfat : fat r.block = .ok chain) :
    (fileFromMeta fat r = .error .SizeMismatch ↔
      ((r.block = 0x80000000 ∧ r.size ≠ 0) ∨
        (r.block ≠ 0x80000000 ∧ (r.size = 0 ∨ r.size > chain.length)))) ∧
    (¬ ((r.block = 0x80000000 ∧ r.size ≠ 0) ∨
        (r.block ≠ 0x80000000 ∧ (r.size = 0 ∨ r.size > chain.length))) →
      fileFromMeta fat r = .ok
        { len := r.size,
          data := if r.block = 0x80000000 then none else some chain }) := by
  by_cases hs : r.block = 0x80000000
  · constructor
    · by_cases hz : r.size = 0
      · simp [fileFromMeta, hs, hz]
      · simp [fileFromMeta, hs, hz]
    · intro hcon
      have hz : r.size = 0 := by tauto
      simp [fileFromMeta, hs, hz]
  · constructor
    · by_cases hz : r.size = 0 ∨ r.size > chain.length
      · simp [fileFromMeta, hs, hfat, hz]
      · simp [fileFromMeta, hs, hfat, hz]
    · intro hcon
      have hz : ¬ (r.size = 0 ∨ r.size > chain.length) := by tauto
      simp [fileFromMeta, hs, hfat, hz]

/-- Witness for C8: a record with block 5 and size 2 over a 3-byte chain
opens as a length-2 file. -/
theorem file_from_meta_size_check_witness :
    fileFromMeta (fun _ => .ok [1, 2, 3]) ⟨0, 0, 5, 2, 0⟩ =
      .ok { len := 2, data := some [1, 2, 3] } := by
  have h := file_from_meta_size_check (fun _ => .ok [1, 2, 3])
    ⟨0, 0, 5, 2, 0⟩ [1, 2, 3] rfl
  exact h.2 (by decide)

/-! C6.  Header validation on open. -/

/-- C6: `SaveData::new` returns MagicMismatch whenever the magic differs
from "SAVE" or the version differs from 0x00040000, returns SizeMismatch
whenever `data_block_count` differs from `fat_size`, and proceeds with
the parsed `FsInfo` only when all three conditions hold. -/
theorem save_header_validation (part0 : List Nat) (header : SaveHeaderP)
    (info : FsInfoP) (hh : readSaveHeader part0 = some header)
    (hf : readFsInfo part0 header.fs_info_offset = some info) :
    (header.magic ≠ [0x53, 0x41, 0x56, 0x45] ∨ header.version ≠ 0x40000 →
      saveDataNew part0 = .error .MagicMismatch) ∧
    (header.magic = [0x53, 0x41, 0x56, 0x45] → header.version = 0x40000 →
      info.data_block_count ≠ info.fat_size →
      saveDataNew part0 = .error .SizeMismatch) ∧
    (header.magic = [0x53, 0x41, 0x56, 0x45] → header.version = 0x40000 →
      info.data_block_count = info.fat_size →
      saveDataNew part0 = .ok info) := by
  refine ⟨?_, ?_, ?_⟩
  · intro hbad
    simp only [saveDataNew, hh]
    rw [if_pos hbad]
  · intro hm hv hne
    simp only [saveDataNew, hh]
    rw [if_neg (by simp [hm, hv]), hf]
    simp only [if_pos hne]
  · intro hm hv heq
    simp only [saveDataNew, hh]
    rw [if_neg (by simp [hm, hv]), hf]
    simp only [heq]
    simp

/-- Witness for C6: a 112-byte partition with magic "SAVE", version
0x00040000, `FsInfo` at offset 32 and equal (zero) block counts parses
and proceeds. -/
theorem save_header_validation_witness :
    saveDataNew
        ([0x53, 0x41, 0x56, 0x45, 0, 0, 4, 0, 32, 0, 0, 0, 0, 0, 0, 0] ++
          List.replicate 96 0) =
      .ok ⟨0, 0, 0, 0, 0, 0, 0, 0, 0, 0, 0, 0, 0, 0⟩ := by
  have h := save_header_validation
    ([0x53, 0x41, 0x56, 0x45, 0, 0, 4, 0, 32, 0, 0, 0, 0, 0, 0, 0] ++
      List.replicate 96 0)
    ⟨[0x53, 0x41, 0x56, 0x45], 0x40000, 32, 0, 0, 0⟩
    ⟨0, 0, 0, 0, 0, 0, 0, 0, 0, 0, 0, 0, 0, 0⟩ (by decide) (by decide)
  exact h.2.2 rfl rfl rfl

/-! C7.  Duplicate-name rejection on create and rename. -/

/-- C7: when a directory already has a child directory or child file
with a given name (and the existing file records themselves open
successfully), `new_sub_dir`, `new_sub_file`, `dir_rename` and
`file_rename` into that directory all return AlreadyExist. -/
theorem duplicate_name_rejected (fat : Nat → Except Err (List Nat))
    (fatCreate : Nat → Except Err (Nat × List Nat)) (m : MetaState)
    (parent : Nat) (name : List Nat) (oldP : Nat) (oldName : List Nat)
    (len blockLen : Nat)
    (hcons : ∀ e ∈ m.fileEntries, isOkE (fileFromMeta fat e.2.2) = true)
    (hdup : (∃ e ∈ m.dirEntries, e.1 = parent ∧ e.2.1 = name) ∨
      (∃ e ∈ m.fileEntries, e.1 = parent ∧ e.2.1 = name)) :
    sdNewSubDir fat m parent name = .error .AlreadyExist ∧
    sdNewSubFile fat fatCreate m parent name len blockLen =
      .error .AlreadyExist ∧
    sdDirRename fat m oldP oldName parent name = .error .AlreadyExist ∧
    sdFileRename m oldP oldName parent name = .error .AlreadyExist := by
  have hdupB : dupExists m parent name = true := by
    rcases hdup with ⟨e, he, h1, h2⟩ | ⟨e, he, h1, h2⟩
    · exact Bool.or_eq_true _ _ |>.mpr (Or.inl
        (List.any_eq_true.mpr ⟨e, he, decide_eq_true ⟨h1, h2⟩⟩))
    · exact Bool.or_eq_true _ _ |>.mpr (Or.inr
        (List.any_eq_true.mpr ⟨e, he, decide_eq_true ⟨h1, h2⟩⟩))
  have hchk : (isOkE (openSubFile fat m parent name) ||
      isOkE (lookupDir m parent name)) = true := by
    rcases hdup with ⟨e, he, h1, h2⟩ | ⟨e, he, h1, h2⟩
    · refine Bool.or_eq_true _ _ |>.mpr (Or.inr ?_)
      have hsome : (m.dirEntries.find?
          (fun x => decide (x.1 = parent ∧ x.2.1 = name))).isSome := by
        rw [List.find?_isSome]
        exact ⟨e, he, decide_eq_true ⟨h1, h2⟩⟩
      rcases hfind : m.dirEntries.find?
          (fun x => decide (x.1 = parent ∧ x.2.1 = name)) with _ | x
      · rw [hfind] at hsome
        simp at hsome
      · have hl : lookupDir m parent name = .ok x.2.2 := by
          unfold lookupDir
          rw [hfind]
        rw [hl]
        rfl
    · refine Bool.or_eq_true _ _ |>.mpr (Or.inl ?_)
      have hsome : (m.fileEntries.find?
          (fun x => decide (x.1 = parent ∧ x.2.1 = name))).isSome := by
        rw [List.find?_isSome]
        exact ⟨e, he, decide_eq_true ⟨h1, h2⟩⟩
      rcases hfind : m.fileEntries.find?
          (fun x => decide (x.1 = parent ∧ x.2.1 = name)) with _ | x
      · rw [hfind] at hsome
        simp at hsome
      · have hxmem : x ∈ m.fileEntries := List.mem_of_find?_eq_some hfind
        have hl : lookupFile m parent name = .ok x.2.2 := by
          unfold lookupFile
          rw [hfind]
        simp only [openSubFile, hl]
        exact hcons x hxmem
  refine ⟨?_, ?_, ?_, ?_⟩
  · simp only [sdNewSubDir]
    rw [if_pos hchk]
  · simp only [sdNewSubFile]
    rw [if_pos hchk]
  · simp only [sdDirRename]
    rw [if_pos hchk]
  · simp [sdFileRename, metaRenameFile, hdupB]

/-- Witness for C7: with a directory child named `[65]` under parent 1,
all four operations on that name report AlreadyExist. -/
theorem duplicate_name_rejected_witness :
    sdNewSubDir (fun _ => .error .BrokenFat) ⟨[(1, [65], 2)], [], 3⟩ 1 [65] =
      .error .AlreadyExist ∧
    sdNewSubFile (fun _ => .error .BrokenFat) (fun _ => .error .NoSpace)
        ⟨[(1, [65], 2)], [], 3⟩ 1 [65] 0 1 = .error .AlreadyExist ∧
    sdDirRename (fun _ => .error .BrokenFat) ⟨[(1, [65], 2)], [], 3⟩ 1 [66] 1
        [65] = .error .AlreadyExist ∧
    sdFileRename ⟨[(1, [65], 2)], [], 3⟩ 1 [66] 1 [65] =
      .error .AlreadyExist :=
  duplicate_name_rejected (fun _ => .error .BrokenFat)
    (fun _ => .error .NoSpace) ⟨[(1, [65], 2)], [], 3⟩ 1 [65] 1 [66] 0 1
    (by simp) (by decide)

/-! Slice algebra for byte stores. -/

theorem slice_append_slice (d : List Nat) (a m k : Nat) (ham : a ≤ m) :
    slice d a (m - a) ++ slice d m k = slice d a (m - a + k) := by
  unfold slice
  rw [List.take_add]
  congr 2
  rw [List.drop_drop]
  congr 1
  omega

theorem slice_listWrite_self (d b : List Nat) (p : Nat)
    (hin : p + b.length ≤ d.length) :
    slice (listWrite d p b) p b.length = b := by
  have h1 : (d.take p).length = p := by rw [List.length_take]; omega
  have h12 : (d.take p ++ b).length = p + b.length := by
    rw [List.length_append, h1]
  unfold slice listWrite
  rw [List.drop_append_eq_append_drop, h12, List.drop_append_eq_append_drop, h1,
    List.drop_eq_nil_of_le (by omega : (d.take p).length ≤ p)]
  have h2 : p - p = 0 := by omega
  have h3 : p - (p + b.length) = 0 := by omega
  rw [h2, h3, List.drop_zero, List.drop_zero, List.nil_append]
  rw [List.take_append_eq_append_take, List.take_length]
  have h4 : b.length - b.length = 0 := by omega
  rw [h4, List.take_zero, List.append_nil]

theorem slice_listWrite_before (d b : List Nat) (p q n : Nat)
    (hqn : q + n ≤ p) (hp : p ≤ d.length) :
    slice (listWrite d p b) q n = slice d q n := by
  have h1 : (d.take p).length = p := by rw [List.length_take]; omega
  have h12 : (d.take p ++ b).length = p + b.length := by
    rw [List.length_append, h1]
  unfold slice listWrite
  rw [List.drop_append_eq_append_drop, h12, List.drop_append_eq_append_drop, h1]
  have h2 : q - p = 0 := by omega
  have h3 : q - (p + b.length) = 0 := by omega
  rw [h2, h3, List.drop_zero, List.drop_zero]
  rw [List.take_append_eq_append_take]
  have h4 : ((d.take p).drop q).length = p - q := by
    rw [List.length_drop, h1]
  rw [List.take_append_eq_append_take, h4]
  have h7 : ((d.take p).drop q ++ b).length = (p - q) + b.length := by
    rw [List.length_append, h4]
  have h5 : n - (p - q) = 0 := by omega
  rw [h5, h7]
  have h8 : n - (p - q + b.length) = 0 := by omega
  rw [h8, List.take_zero, List.take_zero, List.append_nil, List.append_nil]
  rw [List.drop_take, List.take_take]
  congr 1
  omega

theorem slice_listWrite_after (d b : List Nat) (p q n : Nat)
    (hpq : p + b.length ≤ q) (hin : p + b.length ≤ d.length) :
    slice (listWrite d p b) q n = slice d q n := by
  have h1 : (d.take p).length = p := by rw [List.length_take]; omega
  have h12 : (d.take p ++ b).length = p + b.length := by
    rw [List.length_append, h1]
  unfold slice listWrite
  rw [List.drop_append_eq_append_drop, h12,
    List.drop_eq_nil_of_le (by omega : (d.take p ++ b).length ≤ q),
    List.nil_append, List.drop_drop]
  congr 2
  omega

/-! Status-list bookkeeping for `setModified`. -/

theorem block_div4_lt (v : Ivfc) (hok : v.statusOk) (j : Nat)
    (hj : j < v.block_count) : j / 4 < v.status.length := by
  rw [hok.1]
  have h1 : j / 4 ≤ (v.block_count - 1) / 4 := Nat.div_le_div_right (by omega)
  omega

theorem setModified_fields : ∀ (l : List Nat) (v : Ivfc),
    (v.setModified l).data = v.data ∧ (v.setModified l).hash = v.hash ∧
      (v.setModified l).len = v.len ∧
      (v.setModified l).block_len = v.block_len ∧
      (v.setModified l).status.length = v.status.length
  | [], _ => ⟨rfl, rfl, rfl, rfl, rfl⟩
  | i :: rest, v => by
      have ih := setModified_fields rest (v.set_status i 2)
      refine ⟨ih.1, ih.2.1, ih.2.2.1, ih.2.2.2.1, ?_⟩
      show ((v.set_status i 2).setModified rest).status.length = v.status.length
      rw [ih.2.2.2.2]
      simp [Ivfc.set_status]

theorem setModified_statusOk : ∀ (l : List Nat) (v : Ivfc), v.statusOk →
    (v.setModified l).statusOk
  | [], _, h => h
  | _ :: rest, v, h =>
      setModified_statusOk rest _ (set_status_statusOk v _ 2 (by omega) h)

theorem setModified_get_not_mem : ∀ (l : List Nat) (v : Ivfc) (i : Nat),
    v.statusOk → (∀ j ∈ l, j / 4 < v.status.length) → i ∉ l →
    (v.setModified l).get_status i = v.get_status i
  | [], _, _, _, _, _ => rfl
  | j :: rest, v, i, hok, hl, hni => by
      have hij : i ≠ j := fun hc => hni (hc ▸ List.mem_cons_self j rest)
      have h1 := get_status_set_status_other v j i 2 (by omega) hok.2
        (hl j (List.mem_cons_self j rest)) hij
      have hok2 := set_status_statusOk v j 2 (by omega) hok
      have hlen2 : (v.set_status j 2).status.length = v.status.length := by
        simp [Ivfc.set_status]
      have ih := setModified_get_not_mem rest (v.set_status j 2) i hok2
        (fun k hk => hlen2 ▸ hl k (List.mem_cons_of_mem j hk))
        (fun hc => hni (List.mem_cons_of_mem j hc))
      exact ih.trans h1

theorem setModified_get_mem : ∀ (l : List Nat) (v : Ivfc) (i : Nat),
    v.statusOk → (∀ j ∈ l, j / 4 < v.status.length) → i ∈ l →
    (v.setModified l).get_status i = 2
  | j :: rest, v, i, hok, hl, hmem => by
      have hok2 := set_status_statusOk v j 2 (by omega) hok
      have hlen2 : (v.set_status j 2).status.length = v.status.length := by
        simp [Ivfc.set_status]
      by_cases hir : i ∈ rest
      · exact setModified_get_mem rest (v.set_status j 2) i hok2
          (fun k hk => hlen2 ▸ hl k (List.mem_cons_of_mem j hk)) hir
      · have hij : i = j := by
          rcases List.mem_cons.mp hmem with h | h
          · exact h
          · exact absurd h hir
        subst hij
        have h1 := setModified_get_not_mem rest (v.set_status i 2) i hok2
          (fun k hk => hlen2 ▸ hl k (List.mem_cons_of_mem i hk)) hir
        rw [show Ivfc.setModified v (i :: rest) =
          Ivfc.setModified (v.set_status i 2) rest from rfl, h1]
        exact get_status_set_status_same v i 2 (by omega) hok.2
          (hl i (List.mem_cons_self i rest))

/-! Effect of a single `IvfcLevel::write` and of a write sequence. -/

theorem touches_iff_mem_range (B i p l : Nat) (hB : 0 < B) (hl : 0 < l) :
    touches B i p l ↔
      i ∈ List.range' (p / B) (1 + (p + l - 1) / B - p / B) := by
  rw [List.mem_range'_1]
  unfold touches
  have h1 : p / B ≤ (p + l - 1) / B := Nat.div_le_div_right (by omega)
  omega

theorem mem_range_lt_block_count (v : Ivfc) (pos n j : Nat)
    (hin : pos + n ≤ v.len)
    (hj : j ∈ List.range' (pos / v.block_len)
      (1 + (pos + n - 1) / v.block_len - pos / v.block_len)) :
    j < v.block_count := by
  rw [List.mem_range'_1] at hj
  have h1 : (pos + n - 1) / v.block_len ≤ (v.len - 1) / v.block_len :=
    Nat.div_le_div_right (by omega)
  unfold Ivfc.block_count
  omega

theorem write_spec (v : Ivfc) (pos : Nat) (b : List Nat)
    (hlen : v.len = v.data.length) (hin : pos + b.length ≤ v.len)
    (hbne : b ≠ []) :
    v.write pos b = (.ok (),
      ({ v with data := listWrite v.data pos b }).setModified
        (List.range' (pos / v.block_len)
          (1 + (pos + b.length - 1) / v.block_len - pos / v.block_len))) := by
  have hb0 : 0 < b.length := List.length_pos.mpr hbne
  simp only [Ivfc.write]
  rw [if_pos hin]
  rw [memWrite_in_bounds _ _ _ (by omega)]
  simp only []
  rw [if_neg (by omega)]

theorem applyWrites_spec : ∀ (ws : List (Nat × List Nat)) (v : Ivfc),
    0 < v.block_len → v.len = v.data.length → v.statusOk →
    (∀ w ∈ ws, w.1 + w.2.length ≤ v.len ∧ w.2 ≠ []) →
    (v.applyWrites ws).block_len = v.block_len ∧
    (v.applyWrites ws).len = v.len ∧
    (v.applyWrites ws).data = writesData v.data ws ∧
    (v.applyWrites ws).hash = v.hash ∧
    (v.applyWrites ws).statusOk ∧
    (∀ i, ((∃ w ∈ ws, touches v.block_len i w.1 w.2.length) ∨
        v.get_status i = 2) →
      (v.applyWrites ws).get_status i = 2)
  | [], v, _, _, hok, _ => by
      refine ⟨rfl, rfl, rfl, rfl, hok, ?_⟩
      intro i hi
      rcases hi with ⟨w, hw, _⟩ | h
      · exact absurd hw (List.not_mem_nil w)
      · exact h
  | w :: rest, v, hB, hlen, hok, hws => by
      obtain ⟨hwin, hwne⟩ := hws w (List.mem_cons_self w rest)
      have hb0 : 0 < w.2.length := List.length_pos.mpr hwne
      have hw1 := write_spec v w.1 w.2 hlen hwin hwne
      set rng := List.range' (w.1 / v.block_len)
        (1 + (w.1 + w.2.length - 1) / v.block_len - w.1 / v.block_len) with hrng
      set v1 := ({ v with data := listWrite v.data w.1 w.2 }).setModified rng
        with hv1
      have hv1w : (v.write w.1 w.2).2 = v1 := by rw [hw1]
      have hfields := setModified_fields rng
        ({ v with data := listWrite v.data w.1 w.2 })
      have hok1 : Ivfc.statusOk ({ v with data := listWrite v.data w.1 w.2 }) := by
        exact ⟨hok.1, hok.2⟩
      have hv1ok : v1.statusOk := setModified_statusOk rng _ hok1
      have hrl : ∀ j ∈ rng, j / 4 <
          ({ v with data := listWrite v.data w.1 w.2 } : Ivfc).status.length := by
        intro j hj
        exact block_div4_lt v hok j (mem_range_lt_block_count v w.1 w.2.length j hwin hj)
      have hv1len : v1.len = v1.data.length := by
        rw [hfields.2.2.1, hfields.1]
        show v.len = (listWrite v.data w.1 w.2).length
        rw [listWrite_length _ _ _ (by omega)]
        exact hlen
      have hv1B : 0 < v1.block_len := by
        rw [hfields.2.2.2.1]
        exact hB
      have ih := applyWrites_spec rest v1 hv1B hv1len hv1ok (by
        intro w2 hw2
        obtain ⟨h1, h2⟩ := hws w2 (List.mem_cons_of_mem w hw2)
        refine ⟨?_, h2⟩
        rw [hfields.2.2.1]
        exact h1)
      have happ : v.applyWrites (w :: rest) = v1.applyWrites rest := by
        show Ivfc.applyWrites (v.write w.1 w.2).2 rest = v1.applyWrites rest
        rw [hv1w]
      rw [happ]
      have hBeq : v1.block_len = v.block_len := hfields.2.2.2.1
      refine ⟨?_, ?_, ?_, ?_, ih.2.2.2.2.1, ?_⟩
      · rw [ih.1, hBeq]
      · rw [ih.2.1, hfields.2.2.1]
      · rw [ih.2.2.1, hfields.1]
        rfl
      · rw [ih.2.2.2.1, hfields.2.1]
      · intro i hi
        apply ih.2.2.2.2.2
        rw [hBeq]
        rcases hi with ⟨w2, hw2, ht⟩ | hst
        · rcases List.mem_cons.mp hw2 with h | h
          · right
            subst h
            apply setModified_get_mem rng _ i hok1 hrl
            rw [← touches_iff_mem_range _ _ _ _ hB hb0]
            exact ht
          · left
            exact ⟨w2, h, ht⟩
        · right
          by_cases hmem : i ∈ rng
          · exact setModified_get_mem rng _ i hok1 hrl hmem
          · rw [setModified_get_not_mem rng _ i hok1 hrl hmem]
            exact hst

/-! Effect of the `IvfcLevel::commit` loop. -/

theorem commitLoop_spec (H : List Nat → List Nat)
    (hH : ∀ bs, (H bs).length = 32) (l : List Nat) :
    ∀ (v : Ivfc),
    0 < v.block_len → v.len = v.data.length → 1 ≤ v.len →
    v.hash.length = v.block_count * 32 → v.statusOk →
    (∀ j ∈ l, j < v.block_count) → l.Nodup →
    (v.commitLoop H l).1 = .ok () ∧
    (v.commitLoop H l).2.data = v.data ∧
    (v.commitLoop H l).2.len = v.len ∧
    (v.commitLoop H l).2.block_len = v.block_len ∧
    (v.commitLoop H l).2.hash.length = v.hash.length ∧
    (v.commitLoop H l).2.statusOk ∧
    (∀ i, i ∉ l →
      slice (v.commitLoop H l).2.hash (i * 32) 32 = slice v.hash (i * 32) 32 ∧
      (v.commitLoop H l).2.get_status i = v.get_status i) ∧
    (∀ i, i ∈ l →
      (v.get_status i = 2 →
        slice (v.commitLoop H l).2.hash (i * 32) 32 = H (v.fullBlock i) ∧
        (v.commitLoop H l).2.get_status i = 1) ∧
      (v.get_status i ≠ 2 →
        slice (v.commitLoop H l).2.hash (i * 32) 32 =
          slice v.hash (i * 32) 32 ∧
        (v.commitLoop H l).2.get_status i = v.get_status i)) := by
  induction l with
  | nil =>
      intro v _ _ _ _ hok _ _
      exact ⟨rfl, rfl, rfl, rfl, rfl, hok, fun i _ => ⟨rfl, rfl⟩,
        fun i hi => absurd hi (List.not_mem_nil i)⟩
  | cons j rest ih =>
      intro v hB hlen hlen1 hhash hok hl hnd
      have hjbc : j < v.block_count := hl j (List.mem_cons_self j rest)
      have hjrest : j ∉ rest := (List.nodup_cons.mp hnd).1
      have hndr : rest.Nodup := (List.nodup_cons.mp hnd).2
      have hj4 : j / 4 < v.status.length := block_div4_lt v hok j hjbc
      by_cases hst : v.get_status j = 2
      · have hjdiv : j ≤ (v.len - 1) / v.block_len := by
          unfold Ivfc.block_count at hjbc
          omega
        have hble : j * v.block_len ≤ v.len - 1 :=
          le_trans (Nat.mul_le_mul_right _ hjdiv) (Nat.div_mul_le_self _ _)
        have hmono : j * v.block_len ≤ (j + 1) * v.block_len :=
          Nat.mul_le_mul_right _ (by omega)
        have hread : memRead v.data (j * v.block_len)
            (min ((j + 1) * v.block_len) v.len - j * v.block_len) =
            some (slice v.data (j * v.block_len)
              (min ((j + 1) * v.block_len) v.len - j * v.block_len)) :=
          memRead_in_bounds _ _ _ (by omega)
        have hwlen : j * 32 + (H (v.fullBlock j)).length ≤ v.hash.length := by
          rw [hH, hhash]
          omega
        have hwrite : memWrite v.hash (j * 32) (H (v.fullBlock j)) =
            some (listWrite v.hash (j * 32) (H (v.fullBlock j))) :=
          memWrite_in_bounds _ _ _ hwlen
        simp only [Ivfc.commitLoop]
        rw [if_pos hst]
        simp only [hread]
        rw [show slice v.data (j * v.block_len)
              (min ((j + 1) * v.block_len) v.len - j * v.block_len) ++
            List.replicate (v.block_len -
              (min ((j + 1) * v.block_len) v.len - j * v.block_len)) 0 =
            v.fullBlock j from rfl]
        simp only [hwrite]
        set hh := listWrite v.hash (j * 32) (H (v.fullBlock j)) with hhdef
        set w := ({ v with hash := hh }).set_status j 1 with hwdef
        have hwhash : w.hash = hh := rfl
        have hhlen : hh.length = v.hash.length := listWrite_length _ _ _ hwlen
        have hok2 : Ivfc.statusOk { v with hash := hh } := ⟨hok.1, hok.2⟩
        have ihw := ih w (by exact hB) (by exact hlen) (by exact hlen1)
          (by
            show hh.length = v.block_count * 32
            rw [hhlen, hhash])
          (set_status_statusOk _ j 1 (by omega) hok2)
          (by
            intro k hk
            exact hl k (List.mem_cons_of_mem j hk))
          hndr
        have whash_j : slice w.hash (j * 32) 32 = H (v.fullBlock j) := by
          have h1 := slice_listWrite_self v.hash (H (v.fullBlock j)) (j * 32) hwlen
          rw [hH] at h1
          exact h1
        have whash_ne : ∀ i, i ≠ j →
            slice w.hash (i * 32) 32 = slice v.hash (i * 32) 32 := by
          intro i hij
          show slice hh (i * 32) 32 = slice v.hash (i * 32) 32
          rcases Nat.lt_or_ge i j with h | h
          · exact slice_listWrite_before _ _ _ _ _ (by omega) (by omega)
          · have hji : j < i := by omega
            refine slice_listWrite_after _ _ _ _ _ ?_ (by omega)
            rw [hH]
            omega
        have wstat_j : w.get_status j = 1 :=
          get_status_set_status_same _ j 1 (by omega) hok.2 hj4
        have wstat_ne : ∀ i, i ≠ j → w.get_status i = v.get_status i := by
          intro i hij
          exact get_status_set_status_other _ j i 1 (by omega) hok.2 hj4 hij
        refine ⟨ihw.1, ?_, ihw.2.2.1, ihw.2.2.2.1, ?_, ihw.2.2.2.2.2.1, ?_, ?_⟩
        · rw [ihw.2.1]
          rfl
        · rw [ihw.2.2.2.2.1, hwhash, hhlen]
        · intro i hi
          have hir : i ∉ rest := fun hc => hi (List.mem_cons_of_mem j hc)
          have hij : i ≠ j := fun hc => hi (hc ▸ List.mem_cons_self j rest)
          obtain ⟨hs1, hs2⟩ := ihw.2.2.2.2.2.2.1 i hir
          exact ⟨hs1.trans (whash_ne i hij), hs2.trans (wstat_ne i hij)⟩
        · intro i hi
          rcases List.mem_cons.mp hi with hij | hir
          · subst hij
            constructor
            · intro _
              obtain ⟨hs1, hs2⟩ := ihw.2.2.2.2.2.2.1 i hjrest
              exact ⟨hs1.trans whash_j, hs2.trans wstat_j⟩
            · intro hcon
              exact absurd hst hcon
          · have hij : i ≠ j := fun hc => hjrest (hc ▸ hir)
            have hmem := ihw.2.2.2.2.2.2.2 i hir
            constructor
            · intro h2
              have hw2 : w.get_status i = 2 := (wstat_ne i hij).trans h2
              obtain ⟨hs1, hs2⟩ := hmem.1 hw2
              refine ⟨?_, hs2⟩
              rw [hs1]
              rfl
            · intro h2
              have hw2 : w.get_status i ≠ 2 := by
                rw [wstat_ne i hij]
                exact h2
              obtain ⟨hs1, hs2⟩ := hmem.2 hw2
              exact ⟨hs1.trans (whash_ne i hij),
                hs2.trans (wstat_ne i hij)⟩
      · have hloop : v.commitLoop H (j :: rest) = v.commitLoop H rest := by
          simp only [Ivfc.commitLoop]
          rw [if_neg hst]
        rw [hloop]
        have ihv := ih v hB hlen hlen1 hhash hok
          (fun k hk => hl k (List.mem_cons_of_mem j hk)) hndr
        refine ⟨ihv.1, ihv.2.1, ihv.2.2.1, ihv.2.2.2.1, ihv.2.2.2.2.1,
          ihv.2.2.2.2.2.1, ?_, ?_⟩
        · intro i hi
          exact ihv.2.2.2.2.2.2.1 i (fun hc => hi (List.mem_cons_of_mem j hc))
        · intro i hi
          rcases List.mem_cons.mp hi with hij | hir
          · subst hij
            constructor
            · intro h2
              exact absurd h2 hst
            · intro _
              exact ihv.2.2.2.2.2.2.1 i hjrest
          · exact ihv.2.2.2.2.2.2.2 i hir

/-! C3.  The commit frame. -/

/-- C3: `IvfcLevel::commit` succeeds, never writes to the data store,
and for each block: if its status is Modified the SHA-256 digest of its
full (zero-padded) content is written at slot `i * 0x20` of the hash
store and its status becomes Verified; if its status is Unverified or
Verified, both its status and its 32-byte hash slot are left
unchanged. -/
theorem ivfc_commit_frame (H : List Nat → List Nat) (v : Ivfc) (i : Nat)
    (hwf : v.wf) (hH : ∀ bs, (H bs).length = 32) (hi : i < v.block_count) :
    (v.commit H).1 = .ok () ∧
    (v.commit H).2.data = v.data ∧
    (v.get_status i = 2 →
      slice (v.commit H).2.hash (i * 32) 32 = H (v.fullBlock i) ∧
      (v.commit H).2.get_status i = 1) ∧
    (v.get_status i ≠ 2 →
      slice (v.commit H).2.hash (i * 32) 32 = slice v.hash (i * 32) 32 ∧
      (v.commit H).2.get_status i = v.get_status i) := by
  obtain ⟨hB, hlen1, hlen, hhash, hok⟩ := hwf
  have hspec := commitLoop_spec H hH
    (List.range' 0 (1 + (v.len - 1) / v.block_len)) v hB hlen hlen1 hhash hok
    (by
      intro j hj
      rw [List.mem_range'_1] at hj
      unfold Ivfc.block_count
      omega)
    (List.nodup_range' _ _)
  have hmem : i ∈ List.range' 0 (1 + (v.len - 1) / v.block_len) := by
    rw [List.mem_range'_1]
    unfold Ivfc.block_count at hi
    omega
  exact ⟨hspec.1, hspec.2.1, (hspec.2.2.2.2.2.2.2 i hmem).1,
    (hspec.2.2.2.2.2.2.2 i hmem).2⟩

/-- Witness for C3 on a one-block level whose block is Modified: commit
succeeds, rewrites slot 0 with the digest, verifies the block, and
leaves the data store untouched. -/
theorem ivfc_commit_frame_witness :
    (Ivfc.commit (fun _ => List.replicate 32 7)
      ⟨List.replicate 32 1, [9], 1, 1, [2]⟩).1 = .ok () ∧
    (Ivfc.commit (fun _ => List.replicate 32 7)
      ⟨List.replicate 32 1, [9], 1, 1, [2]⟩).2.data = [9] ∧
    slice (Ivfc.commit (fun _ => List.replicate 32 7)
      ⟨List.replicate 32 1, [9], 1, 1, [2]⟩).2.hash 0 32 =
      List.replicate 32 7 ∧
    (Ivfc.commit (fun _ => List.replicate 32 7)
      ⟨List.replicate 32 1, [9], 1, 1, [2]⟩).2.get_status 0 = 1 := by
  have h := ivfc_commit_frame (fun _ => List.replicate 32 7)
    ⟨List.replicate 32 1, [9], 1, 1, [2]⟩ 0
    ⟨by decide, by decide, by decide, by decide, by decide, by decide⟩
    (fun _ => rfl) (by decide)
  exact ⟨h.1, h.2.1, (h.2.2.1 (by decide)).1, (h.2.2.1 (by decide)).2⟩

/-! Behaviour of a single `IvfcLevel::read` block step. -/

theorem readStep_data_read (v : Ivfc) (hB : 0 < v.block_len)
    (hlen : v.len = v.data.length) (hlen1 : 1 ≤ v.len) (i : Nat)
    (hi : i < v.block_count) :
    memRead v.data (i * v.block_len)
        (min ((i + 1) * v.block_len) v.len - i * v.block_len) =
      some (slice v.data (i * v.block_len)
        (min ((i + 1) * v.block_len) v.len - i * v.block_len)) := by
  have hjdiv : i ≤ (v.len - 1) / v.block_len := by
    unfold Ivfc.block_count at hi
    omega
  have hble : i * v.block_len ≤ v.len - 1 :=
    le_trans (Nat.mul_le_mul_right _ hjdiv) (Nat.div_mul_le_self _ _)
  have hmono : i * v.block_len ≤ (i + 1) * v.block_len :=
    Nat.mul_le_mul_right _ (by omega)
  exact memRead_in_bounds _ _ _ (by omega)

theorem readStep_hash_read (v : Ivfc) (hhash : v.hash.length = v.block_count * 32)
    (i : Nat) (hi : i < v.block_count) :
    memRead v.hash (i * 32) 32 = some (slice v.hash (i * 32) 32) :=
  memRead_in_bounds _ _ _ (by omega)

theorem readStep_unverified_match (H : List Nat → List Nat) (v : Ivfc)
    (i : Nat) (hB : 0 < v.block_len) (hlen : v.len = v.data.length)
    (hlen1 : 1 ≤ v.len) (hhash : v.hash.length = v.block_count * 32)
    (hi : i < v.block_count) (h0 : v.get_status i = 0)
    (hm : H (v.fullBlock i) = slice v.hash (i * 32) 32) :
    v.readStep H i = (.ok (v.fullBlock i), v.set_status i 1) := by
  simp only [Ivfc.readStep, readStep_data_read v hB hlen hlen1 i hi]
  rw [show slice v.data (i * v.block_len)
        (min ((i + 1) * v.block_len) v.len - i * v.block_len) ++
      List.replicate (v.block_len -
        (min ((i + 1) * v.block_len) v.len - i * v.block_len)) 0 =
      v.fullBlock i from rfl]
  rw [if_pos h0]
  simp only [readStep_hash_read v hhash i hi]
  rw [if_neg (fun hne => hne hm)]

theorem readStep_unverified_mismatch (H : List Nat → List Nat) (v : Ivfc)
    (i : Nat) (hB : 0 < v.block_len) (hlen : v.len = v.data.length)
    (hlen1 : 1 ≤ v.len) (hhash : v.hash.length = v.block_count * 32)
    (hi : i < v.block_count) (h0 : v.get_status i = 0)
    (hm : H (v.fullBlock i) ≠ slice v.hash (i * 32) 32) :
    v.readStep H i = (.err .HashMismatch, v) := by
  simp only [Ivfc.readStep, readStep_data_read v hB hlen hlen1 i hi]
  rw [show slice v.data (i * v.block_len)
        (min ((i + 1) * v.block_len) v.len - i * v.block_len) ++
      List.replicate (v.block_len -
        (min ((i + 1) * v.block_len) v.len - i * v.block_len)) 0 =
      v.fullBlock i from rfl]
  rw [if_pos h0]
  simp only [readStep_hash_read v hhash i hi]
  rw [if_pos hm]

theorem readStep_skip (H : List Nat → List Nat) (v : Ivfc) (i : Nat)
    (hB : 0 < v.block_len) (hlen : v.len = v.data.length)
    (hlen1 : 1 ≤ v.len) (h0 : v.get_status i ≠ 0) (hi : i < v.block_count) :
    v.readStep H i = (.ok (v.fullBlock i), v) := by
  simp only [Ivfc.readStep, readStep_data_read v hB hlen hlen1 i hi]
  rw [show slice v.data (i * v.block_len)
        (min ((i + 1) * v.block_len) v.len - i * v.block_len) ++
      List.replicate (v.block_len -
        (min ((i + 1) * v.block_len) v.len - i * v.block_len)) 0 =
      v.fullBlock i from rfl]
  rw [if_neg h0]

/-! Error propagation through the `IvfcLevel::read` block loop. -/

theorem readLoop_spec (H : List Nat → List Nat) (l : List Nat) :
    ∀ (v : Ivfc) (pos e : Nat),
    0 < v.block_len → v.len = v.data.length → 1 ≤ v.len →
    v.hash.length = v.block_count * 32 → v.statusOk →
    (∀ j ∈ l, j < v.block_count) →
    (v.readLoop H pos e l).2.data = v.data ∧
    (v.readLoop H pos e l).2.hash = v.hash ∧
    (v.readLoop H pos e l).2.len = v.len ∧
    (v.readLoop H pos e l).2.block_len = v.block_len ∧
    (v.readLoop H pos e l).2.statusOk ∧
    (∀ er, (v.readLoop H pos e l).1 = .err er → er = .HashMismatch ∧
      ∃ j ∈ l, (v.readLoop H pos e l).2.get_status j = 0 ∧
        H (v.fullBlock j) ≠ slice v.hash (j * 32) 32) ∧
    (v.readLoop H pos e l).1 ≠ .panicked := by
  induction l with
  | nil =>
      intro v pos e _ _ _ _ hok _
      refine ⟨rfl, rfl, rfl, rfl, hok, ?_, by simp [Ivfc.readLoop]⟩
      intro er her
      exact absurd her (by simp [Ivfc.readLoop])
  | cons i rest ih =>
      intro v pos e hB hlen hlen1 hhash hok hl
      have hibc : i < v.block_count := hl i (List.mem_cons_self i rest)
      have hi4 : i / 4 < v.status.length := block_div4_lt v hok i hibc
      by_cases h0 : v.get_status i = 0
      · by_cases hm : H (v.fullBlock i) = slice v.hash (i * 32) 32
        · have hstep := readStep_unverified_match H v i hB hlen hlen1 hhash hibc h0 hm
          have hok1 := set_status_statusOk v i 1 (by omega) hok
          have ih1 := ih (v.set_status i 1) pos e hB hlen hlen1 hhash hok1
            (fun k hk => hl k (List.mem_cons_of_mem i hk))
          simp only [Ivfc.readLoop, hstep]
          rcases hrs : Ivfc.readLoop H (v.set_status i 1) pos e rest with ⟨r, v2⟩
          rw [hrs] at ih1
          rcases r with rb | er | _
          · refine ⟨ih1.1, ih1.2.1, ih1.2.2.1, ih1.2.2.2.1, ih1.2.2.2.2.1,
              ?_, by simp⟩
            intro er her
            simp at her
          · refine ⟨ih1.1, ih1.2.1, ih1.2.2.1, ih1.2.2.2.1, ih1.2.2.2.2.1,
              ?_, by simp⟩
            intro er2 her
            simp only [RW.err.injEq] at her
            subst her
            obtain ⟨he, j, hj, hs0, hs⟩ := ih1.2.2.2.2.2.1 er rfl
            exact ⟨he, j, List.mem_cons_of_mem i hj, hs0, hs⟩
          · refine ⟨ih1.1, ih1.2.1, ih1.2.2.1, ih1.2.2.2.1, ih1.2.2.2.2.1,
              ?_, ?_⟩
            · intro er her
              simp at her
            · exact absurd rfl ih1.2.2.2.2.2.2
        · have hstep := readStep_unverified_mismatch H v i hB hlen hlen1 hhash hibc h0 hm
          have hloopeq : Ivfc.readLoop H v pos e (i :: rest) =
              (.err .HashMismatch, v) := by
            simp only [Ivfc.readLoop, hstep]
          rw [hloopeq]
          refine ⟨rfl, rfl, rfl, rfl, hok, ?_, by simp⟩
          intro er her
          simp only [RW.err.injEq] at her
          subst her
          exact ⟨rfl, i, List.mem_cons_self i rest, h0, hm⟩
      · have hstep := readStep_skip H v i hB hlen hlen1 h0 hibc
        have ih1 := ih v pos e hB hlen hlen1 hhash hok
          (fun k hk => hl k (List.mem_cons_of_mem i hk))
        simp only [Ivfc.readLoop, hstep]
        rcases hrs : Ivfc.readLoop H v pos e rest with ⟨r, v2⟩
        rw [hrs] at ih1
        rcases r with rb | er | _
        · refine ⟨ih1.1, ih1.2.1, ih1.2.2.1, ih1.2.2.2.1, ih1.2.2.2.2.1,
            ?_, by simp⟩
          intro er her
          simp at her
        · refine ⟨ih1.1, ih1.2.1, ih1.2.2.1, ih1.2.2.2.1, ih1.2.2.2.2.1,
            ?_, by simp⟩
          intro er2 her
          simp only [RW.err.injEq] at her
          subst her
          obtain ⟨he, j, hj, hs⟩ := ih1.2.2.2.2.2.1 er rfl
          exact ⟨he, j, List.mem_cons_of_mem i hj, hs⟩
        · refine ⟨ih1.1, ih1.2.1, ih1.2.2.1, ih1.2.2.2.1, ih1.2.2.2.2.1,
            ?_, ?_⟩
          · intro er her
            simp at her
          · exact absurd rfl ih1.2.2.2.2.2.2

/-! C2.  Read-time verification. -/

/-- C2: within an in-bounds `IvfcLevel::read`, each intersected block
with status Unverified is loaded in full (zero-padded tail), hashed and
compared against the 32-byte digest at slot `i * 0x20`: on match the
block becomes Verified, on mismatch the step returns HashMismatch with
the state untouched; blocks whose status is Verified or Modified are
returned without consulting the hash store (the step result does not
depend on `H` or the stored digest); the read is exactly the loop of
these steps over the intersected blocks, an erroring read reports
HashMismatch with the mismatching block still Unverified afterwards, and
the read never writes to the data or hash stores. -/
theorem ivfc_read_verification (H : List Nat → List Nat) (v : Ivfc)
    (pos n i : Nat) (hwf : v.wf) (hin : pos + n ≤ v.len) (hn : 0 < n)
    (hi : i ∈ List.range' (pos / v.block_len)
      (1 + (pos + n - 1) / v.block_len - pos / v.block_len)) :
    (v.get_status i = 0 → H (v.fullBlock i) = slice v.hash (i * 32) 32 →
      v.readStep H i = (.ok (v.fullBlock i), v.set_status i 1)) ∧
    (v.get_status i = 0 → H (v.fullBlock i) ≠ slice v.hash (i * 32) 32 →
      v.readStep H i = (.err .HashMismatch, v)) ∧
    (v.get_status i ≠ 0 → v.readStep H i = (.ok (v.fullBlock i), v)) ∧
    (v.read H pos n = v.readLoop H pos (pos + n)
      (List.range' (pos / v.block_len)
        (1 + (pos + n - 1) / v.block_len - pos / v.block_len))) ∧
    ((v.read H pos n).1 = .err .HashMismatch →
      ∃ j ∈ List.range' (pos / v.block_len)
        (1 + (pos + n - 1) / v.block_len - pos / v.block_len),
        (v.read H pos n).2.get_status j = 0 ∧
        H (v.fullBlock j) ≠ slice v.hash (j * 32) 32) ∧
    (v.read H pos n).2.data = v.data ∧ (v.read H pos n).2.hash = v.hash := by
  obtain ⟨hB, hlen1, hlen, hhash, hok⟩ := hwf
  have hibc : i < v.block_count := mem_range_lt_block_count v pos n i hin hi
  have hread_eq : v.read H pos n = v.readLoop H pos (pos + n)
      (List.range' (pos / v.block_len)
        (1 + (pos + n - 1) / v.block_len - pos / v.block_len)) := by
    simp only [Ivfc.read]
    rw [if_pos hin, if_neg (by omega)]
  have hloop := readLoop_spec H
    (List.range' (pos / v.block_len)
      (1 + (pos + n - 1) / v.block_len - pos / v.block_len)) v pos (pos + n)
    hB hlen hlen1 hhash hok
    (fun j hj => mem_range_lt_block_count v pos n j hin hj)
  refine ⟨?_, ?_, ?_, hread_eq, ?_, ?_, ?_⟩
  · intro h0 hm
    exact readStep_unverified_match H v i hB hlen hlen1 hhash hibc h0 hm
  · intro h0 hm
    exact readStep_unverified_mismatch H v i hB hlen hlen1 hhash hibc h0 hm
  · intro h0
    exact readStep_skip H v i hB hlen hlen1 h0 hibc
  · intro herr
    rw [hread_eq] at herr
    obtain ⟨_, j, hj, hs0, hs⟩ := hloop.2.2.2.2.2.1 .HashMismatch herr
    rw [hread_eq]
    exact ⟨j, hj, hs0, hs⟩
  · rw [hread_eq]
    exact hloop.1
  · rw [hread_eq]
    exact hloop.2.1

/-- Witness for C2: on a one-block level with matching stored digest and
status Unverified, the block step verifies the block, and the read leaves
the hash store unchanged. -/
theorem ivfc_read_verification_witness :
    Ivfc.readStep (fun _ => List.replicate 32 7)
        ⟨List.replicate 32 7, [9], 1, 1, [0]⟩ 0 =
      (.ok (Ivfc.fullBlock ⟨List.replicate 32 7, [9], 1, 1, [0]⟩ 0),
        Ivfc.set_status ⟨List.replicate 32 7, [9], 1, 1, [0]⟩ 0 1) ∧
    (Ivfc.read (fun _ => List.replicate 32 7)
        ⟨List.replicate 32 7, [9], 1, 1, [0]⟩ 0 1).2.hash =
      List.replicate 32 7 := by
  have h := ivfc_read_verification (fun _ => List.replicate 32 7)
    ⟨List.replicate 32 7, [9], 1, 1, [0]⟩ 0 1 0
    ⟨by decide, by decide, by decide, by decide, by decide, by decide⟩
    (by decide) (by decide) (by decide)
  exact ⟨h.1 (by decide) (by decide), h.2.2.2.2.2.2⟩

/-! A read over consecutive blocks whose stored digests all match
returns exactly the requested slice of the data store. -/

theorem fullBlock_slice (v : Ivfc) (s a m : Nat) (hB : 0 < v.block_len)
    (hlen : v.len = v.data.length)
    (hbe : s * v.block_len ≤ min ((s + 1) * v.block_len) v.len)
    (ham : s * v.block_len + a + m ≤ min ((s + 1) * v.block_len) v.len) :
    ((v.fullBlock s).drop a).take m =
      slice v.data (s * v.block_len + a) m := by
  have hc : (slice v.data (s * v.block_len)
      (min ((s + 1) * v.block_len) v.len - s * v.block_len)).length =
      min ((s + 1) * v.block_len) v.len - s * v.block_len := by
    unfold slice
    rw [List.length_take, List.length_drop]
    omega
  unfold Ivfc.fullBlock Ivfc.block_end
  rw [List.drop_append_eq_append_drop, hc,
    List.take_append_eq_append_take]
  have h2 : ((slice v.data (s * v.block_len)
      (min ((s + 1) * v.block_len) v.len - s * v.block_len)).drop a).length =
      min ((s + 1) * v.block_len) v.len - s * v.block_len - a := by
    rw [List.length_drop, hc]
  rw [h2]
  have h3 : a - (min ((s + 1) * v.block_len) v.len - s * v.block_len) = 0 := by
    omega
  have h4 : m - (min ((s + 1) * v.block_len) v.len - s * v.block_len - a) = 0 := by
    omega
  rw [h3, h4, List.take_zero, List.append_nil]
  unfold slice
  rw [List.drop_take, List.drop_drop, List.take_take]
  congr 1
  omega

theorem readLoop_ok (H : List Nat → List Nat) :
    ∀ (cnt : Nat) (v : Ivfc) (s pos e : Nat),
    0 < v.block_len → v.len = v.data.length → 1 ≤ v.len →
    v.hash.length = v.block_count * 32 → v.statusOk →
    pos < (s + 1) * v.block_len →
    max (s * v.block_len) pos < e →
    e ≤ v.len →
    e ≤ (s + cnt) * v.block_len →
    (s + cnt - 1) * v.block_len < e →
    (∀ j, s ≤ j → j < s + cnt → v.get_status j = 0 →
      H (v.fullBlock j) = slice v.hash (j * 32) 32) →
    (v.readLoop H pos e (List.range' s cnt)).1 =
      .ok (slice v.data (max (s * v.block_len) pos)
        (e - max (s * v.block_len) pos))
  | 0, v, s, pos, e => by
      intro hB hlen hlen1 hhash hok hpos1 hlt hle hcap hlast hmatch
      exfalso
      rw [Nat.add_zero] at hcap
      have h1 : s * v.block_len ≤ max (s * v.block_len) pos := le_max_left _ _
      omega
  | cnt + 1, v, s, pos, e => by
      intro hB hlen hlen1 hhash hok hpos1 hlt hle hcap hlast hmatch
      have hsbc : s < v.block_count := by
        have h1 : s * v.block_len ≤ max (s * v.block_len) pos := le_max_left _ _
        have h2 : s * v.block_len ≤ v.len - 1 := by omega
        have h3 : s ≤ (v.len - 1) / v.block_len :=
          (Nat.le_div_iff_mul_le hB).mpr h2
        unfold Ivfc.block_count
        omega
      have hs4 : s / 4 < v.status.length := block_div4_lt v hok s hsbc
      have hdend : min (min ((s + 1) * v.block_len) v.len) e =
          min ((s + 1) * v.block_len) e := by omega
      have hbe : s * v.block_len ≤ min ((s + 1) * v.block_len) v.len := by
        have hmono : s * v.block_len ≤ (s + 1) * v.block_len :=
          Nat.mul_le_mul_right _ (by omega)
        have h1 : s * v.block_len ≤ max (s * v.block_len) pos := le_max_left _ _
        omega
      have hseg :
          (((v.fullBlock s).drop
              (max (s * v.block_len) pos - s * v.block_len)).take
            (min (min ((s + 1) * v.block_len) v.len) e -
              max (s * v.block_len) pos)) =
          slice v.data (max (s * v.block_len) pos)
            (min ((s + 1) * v.block_len) e - max (s * v.block_len) pos) := by
        have h1 : s * v.block_len ≤ max (s * v.block_len) pos := le_max_left _ _
        have heq : s * v.block_len +
            (max (s * v.block_len) pos - s * v.block_len) =
            max (s * v.block_len) pos := by omega
        rw [hdend]
        have hfs := fullBlock_slice v s
          (max (s * v.block_len) pos - s * v.block_len)
          (min ((s + 1) * v.block_len) e - max (s * v.block_len) pos)
          hB hlen hbe (by omega)
        rw [hfs, heq]
      have cont : ∀ w : Ivfc,
          v.readStep H s = (.ok (v.fullBlock s), w) →
          w.data = v.data → w.hash = v.hash → w.len = v.len →
          w.block_len = v.block_len → w.statusOk →
          (∀ j, j ≠ s → w.get_status j = v.get_status j) →
          (v.readLoop H pos e (List.range' s (cnt + 1))).1 =
            .ok (slice v.data (max (s * v.block_len) pos)
              (e - max (s * v.block_len) pos)) := by
        intro w hstepw hwdata hwhash hwlen hwB hwok hwget
        have hwbc : w.block_count = v.block_count := by
          unfold Ivfc.block_count
          rw [hwlen, hwB]
        have hfb : ∀ j, w.fullBlock j = v.fullBlock j := by
          intro j
          unfold Ivfc.fullBlock Ivfc.block_end
          rw [hwdata, hwlen, hwB]
        rw [List.range'_succ]
        simp only [Ivfc.readLoop, hstepw]
        by_cases hc0 : cnt = 0
        · subst hc0
          have hmine : min ((s + 1) * v.block_len) e = e := by
            rw [Nat.add_zero] at hcap
            omega
          have htile : (((v.fullBlock s).drop
              (max (s * v.block_len) pos - s * v.block_len)).take
              (min (min ((s + 1) * v.block_len) v.len) e -
                max (s * v.block_len) pos)) ++ ([] : List Nat) =
              slice v.data (max (s * v.block_len) pos)
                (e - max (s * v.block_len) pos) := by
            rw [List.append_nil, hseg, hmine]
          exact congrArg RW.ok htile
        · have hcnt1 : 1 ≤ cnt := by omega
          have hmono1 : (s + 1) * v.block_len ≤ (s + cnt) * v.block_len :=
            Nat.mul_le_mul_right _ (by omega)
          have hlast1 : (s + cnt) * v.block_len < e := by
            have hx : s + (cnt + 1) - 1 = s + cnt := by omega
            rw [hx] at hlast
            exact hlast
          have hse : (s + 1) * v.block_len < e := by omega
          have hposle : pos ≤ (s + 1) * v.block_len := by omega
          have hmax2 : max ((s + 1) * v.block_len) pos =
              (s + 1) * v.block_len := Nat.max_eq_left hposle
          have ihres := readLoop_ok H cnt w (s + 1) pos e
            (by rw [hwB]; exact hB)
            (by rw [hwlen, hwdata]; exact hlen)
            (by rw [hwlen]; exact hlen1)
            (by rw [hwhash, hwbc]; exact hhash)
            hwok
            (by
              rw [hwB]
              have : (s + 1 + 1) * v.block_len ≥ (s + 1) * v.block_len :=
                Nat.mul_le_mul_right _ (by omega)
              omega)
            (by
              rw [hwB]
              omega)
            (by rw [hwlen]; exact hle)
            (by
              rw [hwB]
              have hx : s + 1 + cnt = s + (cnt + 1) := by omega
              rw [hx]
              exact hcap)
            (by
              rw [hwB]
              have hx : s + 1 + cnt - 1 = s + cnt := by omega
              rw [hx]
              exact hlast1)
            (by
              intro j hj1 hj2 hj0
              have hjs : j ≠ s := by omega
              rw [hfb j, hwhash]
              exact hmatch j (by omega) (by omega)
                ((hwget j hjs).symm.trans hj0))
          rw [hwB, hwdata, hmax2] at ihres
          rcases hrs : Ivfc.readLoop H w pos e (List.range' (s + 1) cnt)
            with ⟨r, v2⟩
          rw [hrs] at ihres
          simp only [] at ihres
          subst ihres
          have hminB : min ((s + 1) * v.block_len) e =
              (s + 1) * v.block_len := by omega
          have h1 : s * v.block_len ≤ max (s * v.block_len) pos :=
            le_max_left _ _
          have hml : max (s * v.block_len) pos ≤ (s + 1) * v.block_len := by
            omega
          have htile : (((v.fullBlock s).drop
              (max (s * v.block_len) pos - s * v.block_len)).take
              (min (min ((s + 1) * v.block_len) v.len) e -
                max (s * v.block_len) pos)) ++
              slice v.data ((s + 1) * v.block_len)
                (e - (s + 1) * v.block_len) =
              slice v.data (max (s * v.block_len) pos)
                (e - max (s * v.block_len) pos) := by
            rw [hseg, hminB]
            have hap := slice_append_slice v.data
              (max (s * v.block_len) pos) ((s + 1) * v.block_len)
              (e - (s + 1) * v.block_len) hml
            rw [hap]
            congr 1
            omega
          exact congrArg RW.ok htile
      by_cases h0 : v.get_status s = 0
      · have hstep := readStep_unverified_match H v s hB hlen hlen1 hhash hsbc
          h0 (hmatch s le_rfl (by omega) h0)
        exact cont (v.set_status s 1) hstep rfl rfl rfl rfl
          (set_status_statusOk v s 1 (by omega) hok)
          (fun j hjs =>
            get_status_set_status_other v s j 1 (by omega) hok.2 hs4 hjs)
      · have hstep := readStep_skip H v s hB hlen hlen1 h0 hsbc
        exact cont v hstep rfl rfl rfl rfl hok (fun _ _ => rfl)

theorem read_ok (H : List Nat → List Nat) (v : Ivfc) (pos n : Nat)
    (hB : 0 < v.block_len) (hlen : v.len = v.data.length) (hlen1 : 1 ≤ v.len)
    (hhash : v.hash.length = v.block_count * 32) (hok : v.statusOk)
    (hin : pos + n ≤ v.len) (hn : 0 < n)
    (hmatch : ∀ j, pos / v.block_len ≤ j →
      j < 1 + (pos + n - 1) / v.block_len → v.get_status j = 0 →
      H (v.fullBlock j) = slice v.hash (j * 32) 32) :
    (v.read H pos n).1 = .ok (slice v.data pos n) := by
  have hbbpos : pos / v.block_len * v.block_len ≤ pos :=
    Nat.div_mul_le_self _ _
  have hdm1 := Nat.div_add_mod pos v.block_len
  have hmod1 := Nat.mod_lt pos hB
  have hsucc1 : (pos / v.block_len + 1) * v.block_len =
      pos / v.block_len * v.block_len + v.block_len := Nat.succ_mul _ _
  have hcomm1 : v.block_len * (pos / v.block_len) =
      pos / v.block_len * v.block_len := Nat.mul_comm _ _
  have hpos1 : pos < (pos / v.block_len + 1) * v.block_len := by omega
  have heb1 : pos / v.block_len ≤ (pos + n - 1) / v.block_len :=
    Nat.div_le_div_right (by omega)
  have hdm2 := Nat.div_add_mod (pos + n - 1) v.block_len
  have hmod2 := Nat.mod_lt (pos + n - 1) hB
  have hsucc2 : ((pos + n - 1) / v.block_len + 1) * v.block_len =
      (pos + n - 1) / v.block_len * v.block_len + v.block_len :=
    Nat.succ_mul _ _
  have hcomm2 : v.block_len * ((pos + n - 1) / v.block_len) =
      (pos + n - 1) / v.block_len * v.block_len := Nat.mul_comm _ _
  have hlastle : (pos + n - 1) / v.block_len * v.block_len ≤ pos + n - 1 :=
    Nat.div_mul_le_self _ _
  have hxsum : pos / v.block_len +
      (1 + (pos + n - 1) / v.block_len - pos / v.block_len) =
      (pos + n - 1) / v.block_len + 1 := by omega
  have hcap0 : pos + n ≤ ((pos + n - 1) / v.block_len + 1) * v.block_len := by
    omega
  have hlastlt : (pos + n - 1) / v.block_len * v.block_len < pos + n := by
    omega
  have hmaxlt : max (pos / v.block_len * v.block_len) pos < pos + n := by
    have := le_max_left (pos / v.block_len * v.block_len) pos
    have h2 := Nat.max_le.mpr (And.intro hbbpos le_rfl)
    omega
  have hcap2 : pos + n ≤ (pos / v.block_len +
      (1 + (pos + n - 1) / v.block_len - pos / v.block_len)) *
      v.block_len := by
    rw [hxsum]
    exact hcap0
  have hlast2 : (pos / v.block_len +
      (1 + (pos + n - 1) / v.block_len - pos / v.block_len) - 1) *
      v.block_len < pos + n := by
    have hx2 : pos / v.block_len +
        (1 + (pos + n - 1) / v.block_len - pos / v.block_len) - 1 =
        (pos + n - 1) / v.block_len := by
      rw [hxsum]
      exact Nat.add_sub_cancel _ _
    rw [hx2]
    exact hlastlt
  have hloop := readLoop_ok H
    (1 + (pos + n - 1) / v.block_len - pos / v.block_len) v
    (pos / v.block_len) pos (pos + n) hB hlen hlen1 hhash hok hpos1
    hmaxlt hin hcap2 hlast2
    (by
      intro j hj1 hj2 hj0
      exact hmatch j hj1 (by omega) hj0)
  clear hcap2 hlast2
  rw [Nat.max_eq_right hbbpos, Nat.add_sub_cancel_left] at hloop
  simp only [Ivfc.read]
  rw [if_pos hin, if_neg (by omega)]
  exact hloop

theorem writesData_length : ∀ (ws : List (Nat × List Nat)) (d : List Nat),
    (∀ w ∈ ws, w.1 + w.2.length ≤ d.length) →
    (writesData d ws).length = d.length
  | [], _, _ => rfl
  | w :: rest, d, h => by
      have h1 := h w (List.mem_cons_self w rest)
      have hl := listWrite_length d w.1 w.2 h1
      have ih := writesData_length rest (listWrite d w.1 w.2) (by
        intro w2 hw2
        rw [hl]
        exact h w2 (List.mem_cons_of_mem w hw2))
      exact ih.trans hl

theorem getD_replicate_zero : ∀ (n k : Nat),
    (List.replicate n (0 : Nat)).getD k 0 = 0
  | 0, 0 => rfl
  | 0, _ + 1 => rfl
  | _ + 1, 0 => rfl
  | n + 1, k + 1 => getD_replicate_zero n k

theorem new_get_status (h d : List Nat) (B j : Nat) :
    (Ivfc.new h d B).get_status j = 0 := by
  unfold Ivfc.get_status Ivfc.new
  rw [getD_replicate_zero, Nat.zero_shiftRight, Nat.zero_and]

theorem fullBlock_congr (a b : Ivfc) (hd : a.data = b.data)
    (hl : a.len = b.len) (hB : a.block_len = b.block_len) (j : Nat) :
    a.fullBlock j = b.fullBlock j := by
  unfold Ivfc.fullBlock Ivfc.block_end
  rw [hd, hl, hB]

/-! C1.  The IVFC round trip. -/

/-- C1 counterexample: with no writes at all, commit succeeds but
re-opening over a hash store that does not match the data makes the very
first read fail with HashMismatch, so the claim as stated (any in-bounds
range, any initial stores) is false. -/
theorem ivfc_round_trip_counterexample :
    (((⟨List.replicate 32 1, [0], 1, 1, [0]⟩ : Ivfc).applyWrites []).commit
        (fun _ => List.replicate 32 7)).1 = .ok () ∧
    ((Ivfc.new
        ((((⟨List.replicate 32 1, [0], 1, 1, [0]⟩ : Ivfc).applyWrites
            []).commit (fun _ => List.replicate 32 7)).2.hash)
        ((((⟨List.replicate 32 1, [0], 1, 1, [0]⟩ : Ivfc).applyWrites
            []).commit (fun _ => List.replicate 32 7)).2.data)
        1).read (fun _ => List.replicate 32 7) 0 1).1 =
      .err .HashMismatch := by decide

/-- C1 as amended: for every sequence of in-bounds nonempty writes
followed by commit, re-opening a fresh IvfcLevel over the same hash and
data stores and reading any nonempty in-bounds range whose every
intersected block was touched by some write succeeds and yields exactly
the bytes held after the writes. -/
theorem ivfc_round_trip_amended (H : List Nat → List Nat) (v : Ivfc)
    (ws : List (Nat × List Nat)) (pos n : Nat) (hwf : v.wf)
    (hH : ∀ bs, (H bs).length = 32)
    (hws : ∀ w ∈ ws, w.1 + w.2.length ≤ v.len ∧ w.2 ≠ [])
    (hin : pos + n ≤ v.len) (hn : 0 < n)
    (hcover : ∀ j, pos / v.block_len ≤ j →
      j < 1 + (pos + n - 1) / v.block_len →
      ∃ w ∈ ws, touches v.block_len j w.1 w.2.length) :
    (((v.applyWrites ws).commit H).1 = .ok ()) ∧
    ((Ivfc.new ((v.applyWrites ws).commit H).2.hash
        ((v.applyWrites ws).commit H).2.data v.block_len).read H pos n).1 =
      .ok (slice (writesData v.data ws) pos n) := by
  obtain ⟨hB, hlen1, hlen, hhash, hok⟩ := hwf
  have haw := applyWrites_spec ws v hB hlen hok hws
  have hs1dlen : (v.applyWrites ws).data.length = v.data.length := by
    rw [haw.2.2.1]
    exact writesData_length ws v.data (fun w hw => by
      have := (hws w hw).1
      omega)
  have hs1len : (v.applyWrites ws).len = (v.applyWrites ws).data.length := by
    rw [haw.2.1, hs1dlen]
    exact hlen
  have hs1bc : (v.applyWrites ws).block_count = v.block_count := by
    unfold Ivfc.block_count
    rw [haw.2.1, haw.1]
  have hcommit := commitLoop_spec H hH
    (List.range' 0 (1 + ((v.applyWrites ws).len - 1) /
      (v.applyWrites ws).block_len)) (v.applyWrites ws)
    (by rw [haw.1]; exact hB) hs1len
    (by rw [haw.2.1]; exact hlen1)
    (by rw [haw.2.2.2.1, hs1bc]; exact hhash)
    haw.2.2.2.2.1
    (by
      intro j hj
      rw [List.mem_range'_1] at hj
      unfold Ivfc.block_count
      omega)
    (List.nodup_range' _ _)
  have hceq : (v.applyWrites ws).commit H =
      Ivfc.commitLoop H (v.applyWrites ws)
        (List.range' 0 (1 + ((v.applyWrites ws).len - 1) /
          (v.applyWrites ws).block_len)) := rfl
  rw [← hceq] at hcommit
  refine ⟨hcommit.1, ?_⟩
  have hs2data : ((v.applyWrites ws).commit H).2.data =
      writesData v.data ws := by
    rw [hcommit.2.1, haw.2.2.1]
  have hs2dlen : ((v.applyWrites ws).commit H).2.data.length = v.len := by
    rw [hs2data, writesData_length ws v.data (fun w hw => by
      have := (hws w hw).1
      omega)]
    omega
  set fresh := Ivfc.new ((v.applyWrites ws).commit H).2.hash
    ((v.applyWrites ws).commit H).2.data v.block_len with hfresh
  have hflen : fresh.len = v.len := hs2dlen
  have hfbc : fresh.block_count = v.block_count := by
    unfold Ivfc.block_count
    rw [hflen]
    rfl
  have hfhash : fresh.hash.length = fresh.block_count * 32 := by
    show ((v.applyWrites ws).commit H).2.hash.length = fresh.block_count * 32
    rw [hcommit.2.2.2.2.1, haw.2.2.2.1, hfbc]
    exact hhash
  have hfok : fresh.statusOk := by
    constructor
    · show (List.replicate
        (1 + ((1 + (((v.applyWrites ws).commit H).2.data.length - 1) /
          v.block_len) - 1) / 4) 0).length = 1 + (fresh.block_count - 1) / 4
      rw [List.length_replicate]
      have : fresh.block_count =
          1 + (((v.applyWrites ws).commit H).2.data.length - 1) /
            v.block_len := by
        unfold Ivfc.block_count
        rfl
      omega
    · intro b hb
      have := List.eq_of_mem_replicate hb
      omega
  have hmatchf : ∀ j, pos / fresh.block_len ≤ j →
      j < 1 + (pos + n - 1) / fresh.block_len → fresh.get_status j = 0 →
      H (fresh.fullBlock j) = slice fresh.hash (j * 32) 32 := by
    intro j hj1 hj2 _
    have hjbc : j < v.block_count := by
      have h1 : (pos + n - 1) / v.block_len ≤ (v.len - 1) / v.block_len :=
        Nat.div_le_div_right (by omega)
      unfold Ivfc.block_count
      have hj2' : j < 1 + (pos + n - 1) / v.block_len := hj2
      omega
    have hjmem : j ∈ List.range' 0 (1 + ((v.applyWrites ws).len - 1) /
        (v.applyWrites ws).block_len) := by
      rw [List.mem_range'_1]
      refine ⟨by omega, ?_⟩
      have : 1 + ((v.applyWrites ws).len - 1) / (v.applyWrites ws).block_len =
          (v.applyWrites ws).block_count := rfl
      rw [this, hs1bc]
      omega
    have hmod : (v.applyWrites ws).get_status j = 2 := by
      apply haw.2.2.2.2.2
      left
      obtain ⟨w, hw, ht⟩ := hcover j hj1 hj2
      exact ⟨w, hw, ht⟩
    have hslot := ((hcommit.2.2.2.2.2.2.2 j hjmem).1 hmod).1
    have hfb : fresh.fullBlock j = (v.applyWrites ws).fullBlock j := by
      apply fullBlock_congr
      · show ((v.applyWrites ws).commit H).2.data = (v.applyWrites ws).data
        exact hcommit.2.1
      · show fresh.len = (v.applyWrites ws).len
        rw [hflen, haw.2.1]
      · show v.block_len = (v.applyWrites ws).block_len
        rw [haw.1]
    rw [hfb]
    exact hslot.symm
  have hread := read_ok H fresh pos n hB
    (by
      show fresh.len = ((v.applyWrites ws).commit H).2.data.length
      rw [hflen, hs2dlen])
    (by rw [hflen]; exact hlen1)
    hfhash hfok (by rw [hflen]; exact hin) hn hmatchf
  rw [hread]
  show RW.ok (slice ((v.applyWrites ws).commit H).2.data pos n) = _
  rw [hs2data]

/-- Witness for the amended C1: writing `[3]` over a one-byte level,
committing, re-opening and reading back yields `[3]`. -/
theorem ivfc_round_trip_amended_witness :
    ((((⟨List.replicate 32 9, [0], 1, 1, [0]⟩ : Ivfc).applyWrites
        [(0, [3])]).commit (fun _ => List.replicate 32 7)).1 = .ok ()) ∧
    ((Ivfc.new
        ((((⟨List.replicate 32 9, [0], 1, 1, [0]⟩ : Ivfc).applyWrites
            [(0, [3])]).commit (fun _ => List.replicate 32 7)).2.hash)
        ((((⟨List.replicate 32 9, [0], 1, 1, [0]⟩ : Ivfc).applyWrites
            [(0, [3])]).commit (fun _ => List.replicate 32 7)).2.data)
        1).read (fun _ => List.replicate 32 7) 0 1).1 = .ok [3] := by
  have h := ivfc_round_trip_amended (fun _ => List.replicate 32 7)
    ⟨List.replicate 32 9, [0], 1, 1, [0]⟩ [(0, [3])] 0 1
    ⟨by decide, by decide, by decide, by decide, by decide, by decide⟩
    (fun _ => rfl) (by decide) (by decide) (by decide)
    (by
      intro j h1 h2
      have hb : (⟨List.replicate 32 9, [0], 1, 1, [0]⟩ : Ivfc).block_len = 1 :=
        rfl
      rw [hb] at h2
      have hj : j = 0 := by omega
      subst hj
      refine ⟨(0, [3]), List.mem_cons_self _ _, ?_⟩
      show touches 1 0 0 1
      unfold touches
      exact ⟨by decide, by decide⟩)
  exact h

end Save3DS
